import Mathlib

/-!
Verification of the jaws `envmanager` subsystem (pkg/envmanager and utils/diff.go)
against its natural-language specification.

The Go sources are shallowly embedded: strings are modelled as Lean `String`
(a wrapper around `List Char`; every input the verified claims exercise is
ASCII, where Go's byte-oriented string operations and the character-level
model agree), Go maps are association lists with insert-or-replace update,
the filesystem touched by `Write` is an explicit association list from path
to file state, and operator interaction (`fmt.Scanln`) is an explicit list of
pending responses.  HCL expressions are embedded as a small AST covering the
constructs the claims exercise (literals, `var.NAME` and `secret.NAME`
references, and calls of the pure library functions `quote`/`unquote`);
evaluation against the layered context mirrors `createEnvHCLContext`.
-/

namespace Jaws

deriving instance DecidableEq for Except

/-! ### Go string primitives (strings, bufio, path/filepath) -/

/-- Does `p` occur at the start of `l`?  Mirrors the check done by Go
`strings.HasPrefix` on byte slices. -/
def listHasPre (p l : List Char) : Bool := l.take p.length == p

/-- Go `strings.TrimPrefix`: removes one leading occurrence of `pre`, if present. -/
def goTrimPre (s pre : String) : String :=
  if listHasPre pre.data s.data then String.mk (s.data.drop pre.data.length) else s

/-- Go `strings.TrimSuffix`: removes one trailing occurrence of `suf`, if present. -/
def goTrimSuf (s suf : String) : String :=
  if listHasPre suf.data.reverse s.data.reverse then
    String.mk ((s.data.reverse.drop suf.data.length).reverse)
  else s

/-- Go `strings.TrimRight(s, "\n")`: removes every trailing newline. -/
def goTrimRightNl (s : String) : String :=
  String.mk (s.data.reverse.dropWhile (fun c => c == '\n')).reverse

/-- Is `needle` an infix of the second argument?  Mirrors Go `strings.Contains`
(scan every position for a match; the empty needle matches everywhere). -/
def isSubL (needle : List Char) : List Char → Bool
  | [] => needle.isEmpty
  | c :: t => listHasPre needle (c :: t) || isSubL needle t

/-- Go `strings.Contains s sub`. -/
def goContains (s sub : String) : Bool := isSubL sub.data s.data

/-- Replace every non-overlapping occurrence of `pat` by `rep`, scanning left to
right, as Go `strings.ReplaceAll` does for a non-empty pattern.  (Go inserts the
replacement between characters for an empty pattern; every pattern used by the
embedded code — `"_"`, `"-"`, `"/"`, the file-function sentinel — is non-empty,
and for an empty pattern this model returns the input unchanged.) -/
def replAllAux (pat rep : List Char) : List Char → Nat → List Char
  | [], _ => []
  | _ :: t, skip + 1 => replAllAux pat rep t skip
  | c :: t, 0 =>
    if pat.length ≠ 0 ∧ listHasPre pat (c :: t) then
      rep ++ replAllAux pat rep t (pat.length - 1)
    else
      c :: replAllAux pat rep t 0

/-- Entry point of the scan: no characters pending to skip. -/
def replAll (pat rep l : List Char) : List Char := replAllAux pat rep l 0

/-- Go `strings.ReplaceAll`. -/
def goReplaceAll (s pat rep : String) : String :=
  String.mk (replAll pat.data rep.data s.data)

/-- Split a character list at every newline; always returns at least one
(possibly empty) segment, like Go `strings.Split(s, "\n")`. -/
def splitNl : List Char → List (List Char)
  | [] => [[]]
  | c :: t =>
    if c = '\n' then [] :: splitNl t
    else
      match splitNl t with
      | [] => [[c]]
      | h :: r => (c :: h) :: r

/-- Drop one trailing carriage return, as Go `bufio.ScanLines` does per line. -/
def dropCR (l : List Char) : List Char :=
  match l.reverse with
  | '\r' :: t => t.reverse
  | _ => l

/-- The sequence of lines a Go `bufio.Scanner` with `ScanLines` yields for `s`:
no line for the empty input, and no empty final line when the input ends in a
newline. -/
def goLines (s : String) : List String :=
  if s.data.isEmpty then []
  else
    let segs := splitNl s.data
    let segs := if s.data.getLast? == some '\n' then segs.dropLast else segs
    segs.map (fun l => String.mk (dropCR l))

/-- Raw newline-split view of a string, used to state "the output contains the
line …". -/
def linesOf (s : String) : List String := (splitNl s.data).map String.mk

/-- Does `s`, split at newlines, contain `line` as one whole segment? -/
def hasLine (s line : String) : Bool := (linesOf s).contains line

/-- Everything after the first newline of `s`, or `""` when `s` has no newline.
Mirrors `strings.Join(strings.SplitAfter(s, "\n")[1:], "")` from `processAttr`. -/
def afterFirstNl : List Char → List Char
  | [] => []
  | c :: t => if c = '\n' then t else afterFirstNl t

/-- First-line removal used for interpreter-marked values. -/
def dropFirstLine (s : String) : String := String.mk (afterFirstNl s.data)

/-- Scan a reversed path for the extension, as Go `filepath.Ext` scans the path
backwards until a path separator. -/
def extFromRev : List Char → List Char → String
  | [], _ => ""
  | c :: t, acc =>
    if c = '/' then ""
    else if c = '.' then String.mk ('.' :: acc)
    else extFromRev t (c :: acc)

/-- Go `filepath.Ext`: the suffix of the final path element starting at its
final dot, or `""`. -/
def goExt (s : String) : String := extFromRev s.data.reverse []

/-- ASCII white-space recognized by Go `strings.TrimSpace` (the inputs the
claims exercise are ASCII; Unicode white space is not modelled). -/
def isSpaceCh (c : Char) : Bool :=
  c == ' ' || c == '\t' || c == '\n' || c == '\r' || c == '\x0b' || c == '\x0c'

/-- Go `strings.TrimSpace` on ASCII input. -/
def goTrimSpace (s : String) : String :=
  String.mk (((s.data.dropWhile isSpaceCh).reverse.dropWhile isSpaceCh).reverse)

/-- Go `strings.Join`. -/
def goJoin (sep : String) : List String → String
  | [] => ""
  | [x] => x
  | x :: y :: t => x ++ sep ++ goJoin sep (y :: t)

/-- ASCII lower-casing of one character (`strings.ToLower` restricted to the
ASCII inputs in play). -/
def lowerChar (c : Char) : Char :=
  if 'A' ≤ c ∧ c ≤ 'Z' then Char.ofNat (c.toNat + 32) else c

/-- ASCII upper-casing of one character (`strings.ToUpper` restricted to ASCII). -/
def upperChar (c : Char) : Char :=
  if 'a' ≤ c ∧ c ≤ 'z' then Char.ofNat (c.toNat - 32) else c

/-- `strings.ToLower` on ASCII input. -/
def asciiLower (s : String) : String := String.mk (s.data.map lowerChar)

/-- `strings.ToUpper` on ASCII input. -/
def asciiUpper (s : String) : String := String.mk (s.data.map upperChar)

/-- Go `strings.Repeat`. -/
def strRepeat (s : String) (n : Nat) : String := String.join (List.replicate n s)

/-- The one-character string `s[len(s)-1:]` for non-empty ASCII `s` (the empty
string maps to `""`; Go would panic, but every call site guards non-emptiness). -/
def lastCharStr (s : String) : String := String.mk (s.data.reverse.take 1)

/-! ### Go map and slice helpers -/

/-- Lookup in an association-list model of a Go map. -/
def mapGet {α : Type} : List (String × α) → String → Option α
  | [], _ => none
  | (k', v) :: t, k => if k' = k then some v else mapGet t k

/-- Insert-or-replace in an association-list model of a Go map. -/
def mapInsert {α : Type} : List (String × α) → String → α → List (String × α)
  | [], k, v => [(k, v)]
  | (k', v') :: t, k, v => if k' = k then (k', v) :: t else (k', v') :: mapInsert t k v

/-- Remove a key from an association-list model of a Go map / filesystem. -/
def mapRemove {α : Type} : List (String × α) → String → List (String × α)
  | [], _ => []
  | (k', v') :: t, k => if k' = k then t else (k', v') :: mapRemove t k

/-- The `contains` helper from `process.go`: linear membership scan over a
string slice. -/
def containsGo : List String → String → Bool
  | [], _ => false
  | a :: t, e => if a = e then true else containsGo t e

/-- List concatenation of per-element expansions (used to state collection
properties; plain recursion, no library dependency). -/
def flatMapL {α β : Type} (f : α → List β) : List α → List β
  | [] => []
  | a :: t => f a ++ flatMapL f t

theorem containsGo_iff (l : List String) (e : String) :
    containsGo l e = true ↔ e ∈ l := by
  induction l with
  | nil => simp [containsGo]
  | cons a t ih =>
    by_cases h : a = e
    · subst h; simp [containsGo]
    · simp only [containsGo, if_neg h, ih, List.mem_cons]
      constructor
      · exact Or.inr
      · rintro (h' | hm)
        · exact absurd h'.symm h
        · exact hm

theorem mem_flatMapL {α β : Type} (f : α → List β) (l : List α) (b : β) :
    b ∈ flatMapL f l ↔ ∃ a ∈ l, b ∈ f a := by
  induction l with
  | nil => simp [flatMapL]
  | cons a t ih => simp [flatMapL, ih]

/-! ### Function library (pkg/envmanager/funcs.go) -/

/-- Escape one character as Go `fmt %q` ("%q" of a string) renders it.  The
model is exact for strings of printable ASCII plus tab and newline; other
control characters and non-ASCII runes use numeric escapes in Go and are
outside the model (no claim exercises them). -/
def escQ (c : Char) : List Char :=
  if c = '"' then ['\\', '"']
  else if c = '\\' then ['\\', '\\']
  else if c = '\n' then ['\\', 'n']
  else if c = '\t' then ['\\', 't']
  else [c]

/-- Character-wise `%q` escaping of a whole string body. -/
def escList : List Char → List Char
  | [] => []
  | c :: t => escQ c ++ escList t

/-- Go `fmt.Sprintf("%q", s)`: the escaped body wrapped in double quotes. -/
def goQuote (s : String) : String := String.mk ('"' :: (escList s.data ++ ['"']))

/-- The `quote` context function: joins its arguments with a space and renders
the result with `%q`. -/
def quoteFn (args : List String) : String := goQuote (goJoin " " args)

/-- Strip one leading and then one trailing double-quote character, each only
if present, exactly as the `unquote` implementation indexes the joined string
(`len > 0 && s[0] == '"'`, then the same on the possibly shortened string's
last byte). -/
def unquoteCore (l : List Char) : List Char :=
  let l1 := if l.head? = some '"' then l.tail else l
  if l1.getLast? = some '"' then l1.dropLast else l1

/-- The `unquote` context function: joins its arguments with a space, then
strips one surrounding pair of double quotes if present. -/
def unquoteFn (args : List String) : String := String.mk (unquoteCore (goJoin " " args).data)

/-- ASCII letter test, matching the regex classes `[a-zA-Z]`. -/
def isAlphaCh (c : Char) : Bool :=
  (decide ('a' ≤ c) && decide (c ≤ 'z')) || (decide ('A' ≤ c) && decide (c ≤ 'Z'))

/-- ASCII digit test, matching `[0-9]`. -/
def isDigitCh (c : Char) : Bool := decide ('0' ≤ c) && decide (c ≤ '9')

/-- ASCII alphanumeric test, matching `[a-zA-Z0-9]`. -/
def isAlnumCh (c : Char) : Bool := isAlphaCh c || isDigitCh c

/-- Split a character list at its first dot, if any. -/
def splitFirstDot : List Char → Option (List Char × List Char)
  | [] => none
  | c :: t =>
    if c = '.' then some ([], t)
    else (splitFirstDot t).map (fun p => (c :: p.1, p.2))

/-- The host-label alternation of the `validateDomainName` regex:
one letter, letter/letter, letter/digit or digit/letter, or a 3–63 character
run `[a-zA-Z0-9][a-zA-Z0-9-_]{1,61}[a-zA-Z0-9]`. -/
def matchHostLabel (l : List Char) : Bool :=
  match l with
  | [c] => isAlphaCh c
  | [c, d] => (isAlphaCh c && isAlphaCh d) || (isAlphaCh c && isDigitCh d) ||
      (isDigitCh c && isAlphaCh d)
  | _ =>
    decide (3 ≤ l.length) && decide (l.length ≤ 63) &&
    (match l.head? with | some c => isAlnumCh c | none => false) &&
    (match l.getLast? with | some c => isAlnumCh c | none => false) &&
    ((l.drop 1).dropLast.all fun c => isAlnumCh c || c == '-' || c == '_')

/-- The tail alternation of the `validateDomainName` regex:
`[a-zA-Z]{2,6}` or `[a-zA-Z0-9-]{2,30}\.[a-zA-Z\n]{2,3}`.  The second character
class really contains a newline: the Go pattern is a raw string literal broken
across two source lines inside the class. -/
def matchTld (l : List Char) : Bool :=
  match splitFirstDot l with
  | none => decide (2 ≤ l.length) && decide (l.length ≤ 6) && l.all isAlphaCh
  | some (x, y) =>
    decide (2 ≤ x.length) && decide (x.length ≤ 30) &&
    x.all (fun c => isAlnumCh c || c == '-') &&
    decide (2 ≤ y.length) && decide (y.length ≤ 3) &&
    y.all (fun c => isAlphaCh c || c == '\n')

/-- Model of `validateDomainName`: the anchored regex matches exactly the
strings of shape `label.tail` where the label (which contains no dot, so the
split is at the first dot) matches the host-label alternation and the tail
matches the tail alternation. -/
def validateDomainName (domain : String) : Bool :=
  match splitFirstDot domain.data with
  | none => false
  | some (a, b) => matchHostLabel a && matchTld b

/-- A resolved address as `net.LookupIP` returns it: whether `To4()` is
non-nil, and the `String()` rendering. -/
structure IPAddr where
  v4 : Bool
  repr : String
deriving DecidableEq

/-- Model of the `resolve` context function.  DNS is environment-dependent, so
the lookup is a parameter: `none` models a `net.LookupIP` error, `some l` the
returned address list.  The Go loop keeps overwriting `retAddr` with every IPv4
address it sees, so the last IPv4 address wins. -/
def resolve (lookup : String → Option (List IPAddr)) (fqdn : String) : Except String String :=
  if !validateDomainName fqdn && fqdn ≠ "localhost" then
    Except.error ("invalid FQDN: " ++ fqdn)
  else
    match lookup fqdn with
    | none => Except.error ("unknown FQDN: " ++ fqdn)
    | some addr => Except.ok (addr.foldl (fun acc ip => if ip.v4 then ip.repr else acc) fqdn)

/-! ### Value and expression model (HCL via go-cty) -/

/-- The cty value kinds `processAttr` switches on.  `nilv` stands for the
null/dynamic value HCL yields alongside a diagnostic (it falls into the
`default` arm of the type switch). -/
inductive CtyVal where
  | str (s : String)
  | num (n : Int)
  | bool (b : Bool)
  | nilv
deriving DecidableEq

/-- Embedded HCL attribute expressions: the constructs the verified claims
exercise — literals, `var.NAME`, `secret.NAME`, and calls of the pure library
functions `quote` and `unquote` (whose implementations are `quoteFn` and
`unquoteFn` above). -/
inductive Expr where
  | lit (v : CtyVal)
  | varRef (name : String)
  | secretRef (name : String)
  | fnQuote (args : List Expr)
  | fnUnquote (args : List Expr)

/-- The evaluation context built by `createEnvHCLContext`: the `var` object
(locals overlaid with prefixed environment variables) and the `secret` object
(normalized secret IDs to contents). -/
structure EvalCtx where
  vars : List (String × CtyVal)
  secrets : List (String × String)
deriving DecidableEq

mutual

/-- Evaluate an embedded expression against the context.  A reference to a
missing object attribute produces an HCL "Unsupported attribute" diagnostic,
which `processAttr` detects by substring; the model's message keeps those
words.  Function parameters are `cty.String`; arguments of other kinds would
be converted by cty, which no claim exercises, so they are modelled as
evaluation errors. -/
def evalExpr (ctx : EvalCtx) : Expr → Except String CtyVal
  | .lit v => Except.ok v
  | .varRef n =>
    match mapGet ctx.vars n with
    | some v => Except.ok v
    | none => Except.error ("Unsupported attribute: this object does not have an attribute named var." ++ n)
  | .secretRef n =>
    match mapGet ctx.secrets n with
    | some s => Except.ok (CtyVal.str s)
    | none => Except.error ("Unsupported attribute: this object does not have an attribute named secret." ++ n)
  | .fnQuote args =>
    match evalArgs ctx args with
    | Except.error e => Except.error e
    | Except.ok strs => Except.ok (CtyVal.str (quoteFn strs))
  | .fnUnquote args =>
    match evalArgs ctx args with
    | Except.error e => Except.error e
    | Except.ok strs => Except.ok (CtyVal.str (unquoteFn strs))

/-- Evaluate a call's arguments left to right to strings. -/
def evalArgs (ctx : EvalCtx) : List Expr → Except String (List String)
  | [] => Except.ok []
  | e :: t =>
    match evalExpr ctx e with
    | Except.error msg => Except.error msg
    | Except.ok (CtyVal.str s) =>
      match evalArgs ctx t with
      | Except.error msg => Except.error msg
      | Except.ok rest => Except.ok (s :: rest)
    | Except.ok _ => Except.error "cty conversion of non-string function argument is not modelled"

end

mutual

/-- Traversal names rooted at the `secret` scope occurring in an expression,
as `Expr.Variables()` reports them to `Prepare`. -/
def secretVarNames : Expr → List String
  | .lit _ => []
  | .varRef _ => []
  | .secretRef n => [n]
  | .fnQuote args => secretVarNamesList args
  | .fnUnquote args => secretVarNamesList args

/-- Secret traversal names of a list of argument expressions. -/
def secretVarNamesList : List Expr → List String
  | [] => []
  | e :: t => secretVarNames e ++ secretVarNamesList t

end

/-! ### Renderer (pkg/envmanager/process.go, env.go) -/

/-- Sentinel prefix returned by the `file` context function. -/
def FILE_FUNC_SUCCESS : String := "DataWrittenToFileSuccessfully"

/-- Interpreter marker for values that are re-evaluated as expressions. -/
def INTERPRETER_SHEBANG : String := "#!jaws"

/-- Extra width added around a group label banner. -/
def LABEL_PADDING : Nat := 10

/-- An externally supplied secret: identifier and content, read-only input. -/
structure Secret where
  ID : String
  Content : String
deriving DecidableEq

/-- The `formatEnvVar` helper: trim a prefix, upper-case, then replace each
separator by the replacer, in slice order. -/
def formatEnvVar (envVar pre replacer : String) (separators : List String) : String :=
  separators.foldl (fun s sep => goReplaceAll s sep replacer) (asciiUpper (goTrimPre envVar pre))

/-- Model of `parseAttrString` (env.go): the attribute string is wrapped in a
one-attribute synthetic `vars` document and re-evaluated.  When the string
contains both "(" and ")" it is inserted bare, so the HCL parser reads it as an
expression evaluated against a context holding only `JAWS_`-prefixed
environment variables; modelling the HCL expression parser is outside the
scope of this embedding, so that branch is represented as an error.  Otherwise
the string is inserted between double quotes, and the quoted HCL template
evaluates to the string itself whenever the string contains none of the
characters that would change or break the template (a double quote, a
backslash, a raw newline, or a `${`/`%{` sequence introducer); strings with
such characters are conservatively represented as errors.  Every claim
exercises only the faithful plain-literal path. -/
def parseAttrString (attr : String) : Except String String :=
  if goContains attr "(" && goContains attr ")" then
    Except.error "parseAttrString: expression re-evaluation branch not modelled"
  else if attr.data.any (fun c => c = '"' || c = '\\' || c = '\n' || c = '$' || c = '%') then
    Except.error "parseAttrString: string outside the modelled literal fragment"
  else
    Except.ok attr

/-- The render-pass state threaded through `processAttr`: the global `usedKeys`
slice, the accumulated output string and the emitted-entry counter. -/
structure PState where
  usedKeys : List String
  content : String
  envVarCount : Nat
deriving DecidableEq

/-- The `writeKeyValue` serializer: format-specific rendering of one entry
appended to the accumulated content (`{`/`}` written per the tfvars template). -/
def writeKeyValue (content format key value : String) (envVarCount : Nat) : String :=
  if format = "yaml" then
    content ++ key ++ ": " ++ value ++ "\n"
  else if format = "json" then
    if envVarCount = 0 then content ++ "\n\t\"" ++ key ++ "\": " ++ value
    else content ++ ",\n\t\"" ++ key ++ "\": " ++ value
  else if format = "tfvars" then
    (if envVarCount = 0 then content ++ "\n\t\x7b\n\t\tname = \"" ++ key ++ "\"\n"
     else content ++ ",\n\t\x7b\n\t\tname = \"" ++ key ++ "\"\n")
      ++ "\t\tvalue = " ++ value ++ "\n\t\x7d"
  else
    content ++ key ++ "=" ++ value ++ "\n"

/-- The `wrapGroupLabel` banner: the label between rows of repeated comment
symbols (label length measured in bytes in Go; identical for the ASCII labels
in play). -/
def wrapGroupLabel (content title commentSymbol : String) : String :=
  if commentSymbol ≠ "" then
    let n := title.length + LABEL_PADDING
    let commentBuffer := strRepeat commentSymbol n
    content ++ commentBuffer ++ "\n" ++ (commentSymbol ++ commentSymbol) ++ "   " ++ title
      ++ "   " ++ (commentSymbol ++ commentSymbol) ++ "\n" ++ commentBuffer ++ "\n"
  else content

/-- The error message `processAttr` produces for a failed attribute evaluation:
HCL "Unsupported attribute" diagnostics become a "no value for key" failure
(the ANSI colouring applied by `style.FailureString` is not modelled), other
diagnostics are wrapped. -/
def evalErrMsg (key msg : String) : String :=
  if goContains msg "Unsupported attribute" then
    "no value for key '" ++ key ++ "' found"
  else
    "error in e.Write getting value of attribute HCL: " ++ msg

/-- One iteration of the `processAttr` loop on attribute `(name, expr)`:
evaluate, skip names already in `usedKeys`, dispatch on the value kind (only
strings emit; the file-function sentinel redirects to a `NAME_PATH` key; an
interpreter-marked string has its first line stripped and re-parsed; a plain
string is newline-trimmed and double-quoted), then record the name and bump
the counter.  The `log.Fatal` on a `parseAttrString` failure is modelled as an
error result. -/
def paStep (format : String) (ctx : EvalCtx) (st : PState) (attr : String × Expr) :
    Except String PState :=
  match evalExpr ctx attr.2 with
  | Except.error msg => Except.error (evalErrMsg attr.1 msg)
  | Except.ok v =>
    if containsGo st.usedKeys attr.1 then Except.ok st
    else
      match v with
      | CtyVal.bool _ => Except.ok ⟨st.usedKeys ++ [attr.1], st.content, st.envVarCount + 1⟩
      | CtyVal.num _ => Except.ok ⟨st.usedKeys ++ [attr.1], st.content, st.envVarCount + 1⟩
      | CtyVal.nilv => Except.ok ⟨st.usedKeys ++ [attr.1], st.content, st.envVarCount + 1⟩
      | CtyVal.str s =>
        if goContains s FILE_FUNC_SUCCESS then
          let pathName := attr.1 ++ "_PATH"
          let vStr := goReplaceAll s FILE_FUNC_SUCCESS ""
          Except.ok ⟨st.usedKeys ++ [attr.1],
            writeKeyValue st.content format pathName vStr st.envVarCount, st.envVarCount + 1⟩
        else if goContains s INTERPRETER_SHEBANG then
          match parseAttrString (dropFirstLine s) with
          | Except.error e => Except.error e
          | Except.ok updated =>
            Except.ok ⟨st.usedKeys ++ [attr.1],
              writeKeyValue st.content format attr.1 updated st.envVarCount, st.envVarCount + 1⟩
        else
          let value := "\"" ++ goTrimRightNl s ++ "\""
          Except.ok ⟨st.usedKeys ++ [attr.1],
            writeKeyValue st.content format attr.1 value st.envVarCount, st.envVarCount + 1⟩

/-- The `processAttr` loop over one block's attributes.  `hcl.Attributes` is a
Go map, whose iteration order is unspecified; the embedding receives the
attributes as an explicit list in the order under consideration. -/
def paFold (format : String) (ctx : EvalCtx) (st : PState) :
    List (String × Expr) → Except String PState
  | [] => Except.ok st
  | a :: t =>
    match paStep format ctx st a with
    | Except.error e => Except.error e
    | Except.ok st' => paFold format ctx st' t

/-- `processAttr` on one block: the attribute loop followed by the trailing
newline appended for every format except json and tfvars. -/
def processAttr (format : String) (ctx : EvalCtx) (st : PState)
    (vars : List (String × Expr)) : Except String PState :=
  match paFold format ctx st vars with
  | Except.error e => Except.error e
  | Except.ok st' =>
    if format = "json" || format = "tfvars" then Except.ok st'
    else Except.ok ⟨st'.usedKeys, st'.content ++ "\n", st'.envVarCount⟩

/-- A parsed document as `Process`/`Prepare` see it: scalar header fields plus
the locals, unlabeled `vars` and labeled `group` blocks (each block an ordered
list of attribute expressions). -/
structure EnvHCLDoc where
  Message : String
  OutFile : String
  OutFormat : String
  Profile : String
  Filter : String
  Locals : List (List (String × Expr))
  GroupedVars : List (List (String × Expr))
  GroupedLabeledVars : List (String × List (String × Expr))

/-- `decodeLocalVars`: every locals block is evaluated against a context whose
`var` object holds only the prefixed environment variables; later blocks
overwrite earlier keys.  Evaluation diagnostics are discarded by the Go code
(it returns `nil` diagnostics), leaving the null value in the map, modelled by
`CtyVal.nilv`. -/
def decodeLocalVars (locals : List (List (String × Expr)))
    (envVars : List (String × String)) : List (String × CtyVal) :=
  let localCtx : EvalCtx := ⟨envVars.map (fun p => (p.1, CtyVal.str p.2)), []⟩
  locals.foldl (fun m blk =>
    blk.foldl (fun m kv =>
      mapInsert m kv.1
        (match evalExpr localCtx kv.2 with
         | Except.ok v => v
         | Except.error _ => CtyVal.nilv)) m) []

/-- `decodeSecretVars`: each supplied secret ID is stripped of the given
prefixes, then normalized by `formatEnvVar` (trim a leading "/", upper-case,
replace "-" and "/" by "_") and mapped to its content. -/
def decodeSecretVars (secrets : List Secret) (prefixes : List String) :
    List (String × String) :=
  secrets.foldl (fun m s =>
    let id1 := prefixes.foldl (fun i p => goTrimPre i p) s.ID
    let id2 := formatEnvVar id1 "/" "_" ["-", "/"]
    mapInsert m id2 s.Content) []

/-- `createEnvHCLContext`: locals evaluated env-only, environment entries
overlaid onto the locals by key (environment wins), and the normalized secret
map; the prefixed process environment is an explicit parameter. -/
def createEnvHCLContext (doc : EnvHCLDoc) (secrets : List Secret)
    (prefixes : List String) (envVars : List (String × String)) : EvalCtx :=
  let localVars := decodeLocalVars doc.Locals envVars
  let withEnv := envVars.foldl (fun m p => mapInsert m p.1 (CtyVal.str p.2)) localVars
  ⟨withEnv, decodeSecretVars secrets prefixes⟩

/-- The labeled-group loop of `Process`: banner (for a non-empty label) then
the block's attributes. -/
def processLabeled (format commentSymbol : String) (ctx : EvalCtx) (st : PState) :
    List (String × List (String × Expr)) → Except String PState
  | [] => Except.ok st
  | (label, tmplVars) :: rest =>
    let st1 : PState :=
      if label ≠ "" then ⟨st.usedKeys, wrapGroupLabel st.content label commentSymbol, st.envVarCount⟩
      else st
    match processAttr format ctx st1 tmplVars with
    | Except.error e => Except.error e
    | Except.ok st2 => processLabeled format commentSymbol ctx st2 rest

/-- The unlabeled-block loop of `Process`. -/
def processGrouped (format : String) (ctx : EvalCtx) (st : PState) :
    List (List (String × Expr)) → Except String PState
  | [] => Except.ok st
  | blk :: rest =>
    match processAttr format ctx st blk with
    | Except.error e => Except.error e
    | Except.ok st' => processGrouped format ctx st' rest

/-- The observable outcome of `Process`: the rendered content handed to the
`Reader`, plus the `Filter` and `Message` fields as mutated on the receiver. -/
structure ProcResult where
  content : String
  Filter : String
  Message : String
deriving DecidableEq

/-- Model of `EnvHCL.Process`.  `secrets = none` models a nil slice (the
Go branch `secrets != nil` and the nil-secret context); the prefixed process
environment is the `envVars` parameter.  Steps, in source order: default
message; format and comment symbol from the explicit format or the output
file's extension; header comment; filter normalization (trim a trailing `*`,
else ensure a trailing `/`) and context construction; profile/prefix header
lines; format opening; labeled groups then unlabeled blocks; the per-secret
fallback when no blocks exist; format closing; and the reset to `""` when
nothing was counted. -/
def Process (doc : EnvHCLDoc) (secrets : Option (List Secret))
    (envVars : List (String × String)) : Except String ProcResult :=
  let msg := if doc.Message = "" then "managed by jaws DO NOT EDIT" else doc.Message
  let ext := if doc.OutFormat ≠ "" then "." ++ doc.OutFormat else goExt doc.OutFile
  let format :=
    if ext = ".yaml" || ext = ".yml" then "yaml"
    else if ext = ".json" then "json"
    else if ext = ".tfvars" then "tfvars"
    else ""
  let commentSymbol := if format = "json" then "" else "#"
  let content := if commentSymbol ≠ "" then "# " ++ msg ++ "\n" else ""
  let filter :=
    if secrets.isSome && doc.Filter ≠ "" then
      let lastChar := lastCharStr doc.Filter
      if lastChar = "*" then goTrimSuf doc.Filter "*"
      else if lastChar ≠ "/" then doc.Filter ++ "/"
      else doc.Filter
    else doc.Filter
  let ctx :=
    if secrets.isSome && doc.Filter ≠ "" then
      createEnvHCLContext doc (secrets.getD []) [filter] envVars
    else
      createEnvHCLContext doc [] [""] envVars
  let content :=
    if commentSymbol ≠ "" then
      let c1 := if doc.Profile ≠ "" then content ++ commentSymbol ++ " profile: " ++ doc.Profile ++ "\n" else content
      let c2 := if filter ≠ "" then c1 ++ commentSymbol ++ " prefix: " ++ filter ++ "\n" else c1
      if doc.Profile ≠ "" || filter ≠ "" then c2 ++ "\n" else c2
    else content
  let content :=
    if format = "json" then content ++ "\x7b\n"
    else if format = "tfvars" then content ++ "["
    else content
  let secretsDetected := doc.GroupedLabeledVars.length > 0 || doc.GroupedVars.length > 0
  match processLabeled format commentSymbol ctx ⟨[], content, 0⟩ doc.GroupedLabeledVars with
  | Except.error e => Except.error e
  | Except.ok st1 =>
    match processGrouped format ctx st1 doc.GroupedVars with
    | Except.error e => Except.error e
    | Except.ok st2 =>
      let st3 :=
        if secretsDetected then st2
        else
          (secrets.getD []).foldl (fun (st : PState) s =>
            let sid := formatEnvVar s.ID filter "_" ["/", "-"]
            let value := goTrimRightNl s.Content
            ⟨st.usedKeys, writeKeyValue st.content format sid value st.envVarCount,
              st.envVarCount + 1⟩) st2
      let content :=
        if format = "json" then st3.content ++ "\n\x7d\n"
        else if format = "tfvars" then st3.content ++ "\n]\n"
        else st3.content
      let content := if st3.envVarCount = 0 then "" else content
      Except.ok ⟨content, filter, msg⟩

/-! ### Secret reference collection (pkg/envmanager/write.go Prepare) -/

/-- Normalization applied by `utils.FormatPrefixString` before `Prepare`
stores a filter: ensure the prefix ends in `/*`. -/
def FormatPrefixString (p : String) : String :=
  let lastChar := lastCharStr p
  if lastChar = "*" then
    let secondLastChar := String.mk (p.data.reverse.drop 1 |>.take 1)
    if secondLastChar ≠ "/" then goTrimSuf p "*" ++ "/*" else p
  else if lastChar = "/" then p ++ "*"
  else p ++ "/*"

/-- The secret identifier `Prepare` reconstructs for one `secret.`-rooted
traversal name: the stored filter with its trailing `*` trimmed, concatenated
with the lower-cased traversal name, with every underscore of the whole
concatenation replaced by a hyphen. -/
def mkSecretId (filter name : String) : String :=
  goReplaceAll (goTrimSuf filter "*" ++ asciiLower name) "_" "-"

/-- The identifiers `Prepare` collects from a document: `secret`-rooted
traversal names of every attribute of every unlabeled block, then of every
labeled block, each mapped through `mkSecretId`. -/
def collectSecretIds (filter : String) (groupedVars : List (List (String × Expr)))
    (groupedLabeledVars : List (String × List (String × Expr))) : List String :=
  flatMapL (fun blk => flatMapL (fun kv => (secretVarNames kv.2).map (mkSecretId filter)) blk)
      groupedVars
    ++ flatMapL (fun lb => flatMapL (fun kv => (secretVarNames kv.2).map (mkSecretId filter)) lb.2)
      groupedLabeledVars

/-- The deduplicating append at the end of `Prepare`: each collected identifier
is added to the config's `SecretIDs` unless already present. -/
def appendDedup (existing ids : List String) : List String :=
  ids.foldl (fun acc id => if containsGo acc id then acc else acc ++ [id]) existing

/-- Follows the spec's words for claim C4, which reads "filter-prefix +
lower-cased-attribute-name (with underscores mapped back to the backend's
path separator)": the path separator of the secret backends is `/`, so under
that reading underscores become slashes.  Compared against `mkSecretId`,
which is what `Prepare` actually computes. -/
def specSecretIdPathSep (filter name : String) : String :=
  goReplaceAll (goTrimSuf filter "*" ++ asciiLower name) "_" "/"

/-! ### Writer (pkg/envmanager/write.go Write, utils/diff.go) -/

/-- The caller options, as stored on the `EnvConfig`. -/
structure Options where
  Diff : Bool
  Overwrite : Bool
  UnsafeMode : Bool
  FilterOverride : String
deriving DecidableEq

/-- State of one file on disk: its content and the `ModTime` as it would be
rendered by `Format(time.RFC3339)` (opaque here; used only to name backups). -/
structure FileSt where
  content : String
  modTime : String
deriving DecidableEq

/-- One prepared-and-processed document as `Write` consumes it: the output
path and the rendered bytes read from its `Reader`. -/
structure EnvDoc where
  OutFile : String
  rendered : String
deriving DecidableEq

/-- One `Scan`/`Text` step of a `bufio.Scanner`: pending lines to (remaining
lines, current text, scan success).  After a failed scan the token is nil and
`Text()` is the empty string. -/
def scanStep (p : List String) : List String × String × Bool :=
  match p with
  | [] => ([], "", false)
  | h :: t => (t, h, true)

/-- The comparison loop of `utils.CompareStrings`, with the state Go keeps:
pending lines, current text and scan-success flag per scanner, and the
accumulated `isDiff`.  The loop breaks once both scanners report failure; each
iteration advances every still-successful scanner and compares the texts.  The
styled `-old`/`+new` console listing produced in print mode does not affect
the returned value and is not modelled.  The fuel is an upper bound on the
iteration count, never reached before the break. -/
def csLoop : Nat → List String → String → Bool → List String → String → Bool → Bool → Bool
  | 0, _, _, _, _, _, _, isDiff => isDiff
  | fuel + 1, p1, t1, e1, p2, t2, e2, isDiff =>
    if !e1 && !e2 then isDiff
    else
      let s1 := if e1 then scanStep p1 else (p1, t1, e1)
      let s2 := if e2 then scanStep p2 else (p2, t2, e2)
      csLoop fuel s1.1 s1.2.1 s1.2.2 s2.1 s2.2.1 s2.2.2 (isDiff || s1.2.1 ≠ s2.2.1)

/-- `utils.CompareStrings` (result only): whether the two strings differ under
the pairwise line scan. -/
def compareStrings (s1 s2 : String) : Bool :=
  let l1 := goLines s1
  let l2 := goLines s2
  csLoop (l1.length + l2.length + 3) l1 "" true l2 "" true false

/-- The mutable state threaded through the `Write` loop: the filesystem, the
config's options (mutated by `Write`), the pending operator responses, the
prompts displayed so far, the notices printed, and bytes written to stdout. -/
structure WState where
  fs : List (String × FileSt)
  opts : Options
  prompts : List String
  shown : List String
  log : List String
  stdout : String
deriving DecidableEq

/-- Outcome of processing one document inside the `Write` loop: continue with
the next document, return `nil` for the whole call, or return an error. -/
inductive WStep where
  | cont (s : WState)
  | stop (s : WState)
  | fail (s : WState) (msg : String)
deriving DecidableEq

/-- The "no changes detected" notice. -/
def noChangesMsg (f : String) : String := "no changes detected for " ++ f ++ "\nquitting...\n"

/-- The destructive-overwrite prompt (unsafe mode; ANSI colouring dropped). -/
def overwriteMsg (f : String) : String := "overwrite '" ++ f ++ "'? [y/N] "

/-- The create-new-and-backup prompt. -/
def backupMsg (f : String) : String :=
  "create new '" ++ f ++ "' and backup '" ++ f ++ "'? [Y/n] "

/-- Final phase for an existing output file: print "writing", create
(truncate) the file and copy the rendered bytes into it (`io.Copy` is skipped
for empty content, leaving the freshly truncated empty file; the created
file's ModTime is not observed by any claim and is modelled as `""`). -/
def finishWrite (s : WState) (f rendered : String) : WStep :=
  let s := { s with log := s.log ++ ["writing " ++ f] }
  WStep.cont { s with fs := mapInsert s.fs f ⟨rendered, ""⟩ }

/-- Backup/remove/create phase for an existing output file, after any prompt:
outside unsafe mode the output path is `./`-trimmed and the existing file is
renamed to `<modtime>-<name>` (a rename of a missing path is an `os.Rename`
error) and `Overwrite` is reset; with `Overwrite` still set (unsafe mode) the
existing file is removed instead. -/
def commitExisting (s : WState) (d : EnvDoc) (stat : FileSt) : WStep :=
  if !s.opts.UnsafeMode then
    let f' := goTrimPre d.OutFile "./"
    match mapGet s.fs f' with
    | none => WStep.fail s ("rename " ++ f' ++ ": no such file or directory")
    | some fi' =>
      let backupName := stat.modTime ++ "-" ++ f'
      let s := { s with
        fs := mapInsert (mapRemove s.fs f') backupName fi',
        log := s.log ++ ["backed up " ++ f' ++ " to " ++ backupName],
        opts := { s.opts with Overwrite := false } }
      if s.opts.Overwrite then
        match mapGet s.fs f' with
        | none => WStep.fail s ("remove " ++ f' ++ ": no such file or directory")
        | some _ => finishWrite { s with fs := mapRemove s.fs f' } f' d.rendered
      else finishWrite s f' d.rendered
  else
    if s.opts.Overwrite then
      match mapGet s.fs d.OutFile with
      | none => WStep.fail s ("remove " ++ d.OutFile ++ ": no such file or directory")
      | some _ => finishWrite { s with fs := mapRemove s.fs d.OutFile } d.OutFile d.rendered
    else finishWrite s d.OutFile d.rendered

/-- Prompt phase: when `Overwrite` is not set, display the mode-dependent
prompt and read one response (`fmt.Scanln`; an absent response reads as "").
An affirmative answer in unsafe mode sets `Overwrite`; any other answer quits
the whole `Write` with `nil`. -/
def promptAndCommit (s : WState) (d : EnvDoc) (stat : FileSt) : WStep :=
  if !s.opts.Overwrite then
    let msg := if s.opts.UnsafeMode then overwriteMsg d.OutFile else backupMsg d.OutFile
    let resp := (s.prompts.head?).getD ""
    let s := { s with shown := s.shown ++ [msg], prompts := s.prompts.tail }
    let r := asciiLower (goTrimSpace resp)
    if r = "y" || r = "yes" then
      let s := if s.opts.UnsafeMode then { s with opts := { s.opts with Overwrite := true } } else s
      commitExisting s d stat
    else
      WStep.stop { s with log := s.log ++ ["quitting..."] }
  else commitExisting s d stat

/-- One iteration of the `Write` loop.  `"-"` writes to stdout with no
conflict logic; a missing output file is created directly; an existing one
goes through option adjustment, change detection (aborting the whole call
with the no-changes notice when equal), prompt and commit. -/
def writeDoc (s : WState) (d : EnvDoc) : WStep :=
  if d.OutFile = "-" then
    WStep.cont { s with stdout := if d.rendered ≠ "" then s.stdout ++ d.rendered else s.stdout }
  else
    match mapGet s.fs d.OutFile with
    | none =>
      let s := { s with log := s.log ++ ["creating " ++ d.OutFile] }
      WStep.cont { s with fs := mapInsert s.fs d.OutFile ⟨d.rendered, ""⟩ }
    | some stat =>
      let opts1 :=
        if s.opts.Diff then
          if s.opts.Overwrite then { s.opts with UnsafeMode := true } else s.opts
        else
          if s.opts.Overwrite then { s.opts with UnsafeMode := true }
          else if !s.opts.UnsafeMode then { s.opts with Overwrite := true }
          else s.opts
      let s := { s with opts := opts1 }
      let isDiff := compareStrings stat.content d.rendered
      if !isDiff then
        WStep.stop { s with log := s.log ++ [noChangesMsg d.OutFile] }
      else
        promptAndCommit s d stat

/-- The `Write` loop over the config's documents, with the Go early returns. -/
def writeDocs : WState → List EnvDoc → WState × Except String Unit
  | s, [] => (s, Except.ok ())
  | s, d :: rest =>
    match writeDoc s d with
    | WStep.cont s' => writeDocs s' rest
    | WStep.stop s' => (s', Except.ok ())
    | WStep.fail s' m => (s', Except.error m)

/-- Model of `EnvConfig.Write`: run the loop from the given options,
filesystem and pending operator responses. -/
def WriteModel (opts : Options) (fs : List (String × FileSt)) (prompts : List String)
    (docs : List EnvDoc) : WState × Except String Unit :=
  writeDocs ⟨fs, opts, prompts, [], [], ""⟩ docs

/-! ### Emission-event view of the attribute loop

To reason about which entries a render pass emits, the attribute loop is
shadowed by a variant that records emission events instead of appending to the
output string; a refinement lemma ties the two together for the flat format. -/

/-- One emission event of `processAttr`: the attribute name that caused it,
the key actually written (the name itself, or `name_PATH` for a file-sentinel
value) and the serialized value. -/
structure EmitRec where
  attr : String
  key : String
  value : String
deriving DecidableEq

/-- The emission the value dispatch of `paStep` performs for attribute `name`
holding value `v`: `none` for the kinds that emit nothing (bool, number,
null), otherwise the key/value pair passed to `writeKeyValue`. -/
def emitOf (name : String) (v : CtyVal) : Except String (Option EmitRec) :=
  match v with
  | CtyVal.bool _ => Except.ok none
  | CtyVal.num _ => Except.ok none
  | CtyVal.nilv => Except.ok none
  | CtyVal.str s =>
    if goContains s FILE_FUNC_SUCCESS then
      Except.ok (some ⟨name, name ++ "_PATH", goReplaceAll s FILE_FUNC_SUCCESS ""⟩)
    else if goContains s INTERPRETER_SHEBANG then
      match parseAttrString (dropFirstLine s) with
      | Except.error e => Except.error e
      | Except.ok u => Except.ok (some ⟨name, name, u⟩)
    else Except.ok (some ⟨name, name, "\"" ++ goTrimRightNl s ++ "\""⟩)

/-- State of the emission-event view: used keys, events so far, counter. -/
structure EState where
  usedKeys : List String
  entries : List EmitRec
  envVarCount : Nat
deriving DecidableEq

/-- Emission-event analogue of `paStep`. -/
def eStep (ctx : EvalCtx) (st : EState) (attr : String × Expr) : Except String EState :=
  match evalExpr ctx attr.2 with
  | Except.error msg => Except.error (evalErrMsg attr.1 msg)
  | Except.ok v =>
    if containsGo st.usedKeys attr.1 then Except.ok st
    else
      match emitOf attr.1 v with
      | Except.error e => Except.error e
      | Except.ok oe =>
        Except.ok ⟨st.usedKeys ++ [attr.1], st.entries ++ oe.toList, st.envVarCount + 1⟩

/-- Emission-event analogue of `paFold`. -/
def eFold (ctx : EvalCtx) (st : EState) : List (String × Expr) → Except String EState
  | [] => Except.ok st
  | a :: t =>
    match eStep ctx st a with
    | Except.error e => Except.error e
    | Except.ok st' => eFold ctx st' t

/-- Flat (env-file) rendering of one emission event. -/
def flatEntry (r : EmitRec) : String := r.key ++ "=" ++ r.value ++ "\n"

/-- Concatenation of a list of strings. -/
def strConcat : List String → String
  | [] => ""
  | s :: t => s ++ strConcat t

/-- Flat rendering of a list of emission events. -/
def flatRender (es : List EmitRec) : String := strConcat (es.map flatEntry)

theorem strConcat_append (a b : List String) :
    strConcat (a ++ b) = strConcat a ++ strConcat b := by
  induction a with
  | nil => simp [strConcat]
  | cons x t ih => simp [strConcat, ih, String.append_assoc]

theorem flatRender_append (a b : List EmitRec) :
    flatRender (a ++ b) = flatRender a ++ flatRender b := by
  simp [flatRender, strConcat_append]

theorem writeKeyValue_flat (c k v : String) (n : Nat) :
    writeKeyValue c "" k v n = c ++ (k ++ "=" ++ v ++ "\n") := by
  simp [writeKeyValue, String.append_assoc]

theorem paStep_flat (ctx : EvalCtx) (u : List String) (c : String) (n : Nat)
    (a : String × Expr) :
    paStep "" ctx ⟨u, c, n⟩ a =
      Except.map (fun r : EState => PState.mk r.usedKeys (c ++ flatRender r.entries) r.envVarCount)
        (eStep ctx ⟨u, [], n⟩ a) := by
  unfold paStep eStep emitOf
  cases evalExpr ctx a.2 with
  | error msg => rfl
  | ok v =>
    simp only
    by_cases hu : containsGo u a.1
    · simp [hu, flatRender, strConcat, Except.map]
    · simp only [hu, Bool.false_eq_true, if_false]
      cases v with
      | bool b => simp [Except.map, flatRender, strConcat]
      | num m => simp [Except.map, flatRender, strConcat]
      | nilv => simp [Except.map, flatRender, strConcat]
      | str s =>
        by_cases h1 : goContains s FILE_FUNC_SUCCESS
        · simp [h1, Except.map, flatRender, strConcat, flatEntry, writeKeyValue_flat]
        · by_cases h2 : goContains s INTERPRETER_SHEBANG
          · simp only [h1, h2, Bool.false_eq_true, if_false, if_true]
            cases parseAttrString (dropFirstLine s) with
            | error e => rfl
            | ok upd => simp [Except.map, flatRender, strConcat, flatEntry, writeKeyValue_flat]
          · simp [h1, h2, Except.map, flatRender, strConcat, flatEntry, writeKeyValue_flat]

theorem eStep_entries (ctx : EvalCtx) (u : List String) (es : List EmitRec) (n : Nat)
    (a : String × Expr) :
    eStep ctx ⟨u, es, n⟩ a =
      Except.map (fun r : EState => EState.mk r.usedKeys (es ++ r.entries) r.envVarCount)
        (eStep ctx ⟨u, [], n⟩ a) := by
  unfold eStep
  cases evalExpr ctx a.2 with
  | error msg => rfl
  | ok v =>
    simp only
    by_cases hu : containsGo u a.1
    · simp [hu, Except.map]
    · simp only [hu, Bool.false_eq_true, if_false]
      cases emitOf a.1 v with
      | error e => rfl
      | ok oe => simp [Except.map]

theorem eFold_entries (ctx : EvalCtx) (l : List (String × Expr)) (u : List String)
    (es : List EmitRec) (n : Nat) :
    eFold ctx ⟨u, es, n⟩ l =
      Except.map (fun r : EState => EState.mk r.usedKeys (es ++ r.entries) r.envVarCount)
        (eFold ctx ⟨u, [], n⟩ l) := by
  induction l generalizing u es n with
  | nil => simp [eFold, Except.map]
  | cons a t ih =>
    unfold eFold
    rw [eStep_entries]
    cases h : eStep ctx ⟨u, [], n⟩ a with
    | error e => rfl
    | ok st' =>
      simp only [Except.map]
      rw [ih st'.usedKeys (es ++ st'.entries) st'.envVarCount,
          ih st'.usedKeys st'.entries st'.envVarCount]
      cases h2 : eFold ctx ⟨st'.usedKeys, [], st'.envVarCount⟩ t with
      | error e => rfl
      | ok r => simp [Except.map]

theorem paFold_flat (ctx : EvalCtx) (l : List (String × Expr)) (u : List String)
    (c : String) (n : Nat) :
    paFold "" ctx ⟨u, c, n⟩ l =
      Except.map (fun r : EState => PState.mk r.usedKeys (c ++ flatRender r.entries) r.envVarCount)
        (eFold ctx ⟨u, [], n⟩ l) := by
  induction l generalizing u c n with
  | nil => simp [paFold, eFold, Except.map, flatRender, strConcat]
  | cons a t ih =>
    unfold paFold eFold
    rw [paStep_flat]
    cases h : eStep ctx ⟨u, [], n⟩ a with
    | error e => rfl
    | ok st' =>
      simp only [Except.map]
      rw [ih st'.usedKeys (c ++ flatRender st'.entries) st'.envVarCount]
      rw [eFold_entries ctx t st'.usedKeys st'.entries st'.envVarCount]
      cases h2 : eFold ctx ⟨st'.usedKeys, [], st'.envVarCount⟩ t with
      | error e => rfl
      | ok r => simp [Except.map, flatRender_append, String.append_assoc]

/-! ### Invariants of the attribute loop (deduplication) -/

theorem emitOf_attr (k : String) (v : CtyVal) (r : EmitRec)
    (h : emitOf k v = Except.ok (some r)) : r.attr = k := by
  unfold emitOf at h
  cases v with
  | bool b => simp at h
  | num m => simp at h
  | nilv => simp at h
  | str s =>
    by_cases h1 : goContains s FILE_FUNC_SUCCESS
    · simp only [h1, if_true, Except.ok.injEq, Option.some.injEq] at h
      rw [← h]
    · by_cases h2 : goContains s INTERPRETER_SHEBANG
      · simp only [h1, h2, Bool.false_eq_true, if_false, if_true] at h
        cases hp : parseAttrString (dropFirstLine s) with
        | error e => rw [hp] at h; exact absurd h (by simp)
        | ok upd =>
          rw [hp] at h
          simp only [Except.ok.injEq, Option.some.injEq] at h
          rw [← h]
      · simp only [h1, h2, Bool.false_eq_true, if_false, Except.ok.injEq,
          Option.some.injEq] at h
        rw [← h]

theorem eStep_ok (ctx : EvalCtx) (u : List String) (es : List EmitRec) (n : Nat)
    (a : String × Expr) (st' : EState) (h : eStep ctx ⟨u, es, n⟩ a = Except.ok st') :
    (containsGo u a.1 = true ∧ st' = ⟨u, es, n⟩) ∨
    (containsGo u a.1 = false ∧ ∃ v oe, evalExpr ctx a.2 = Except.ok v ∧
      emitOf a.1 v = Except.ok oe ∧ st' = ⟨u ++ [a.1], es ++ oe.toList, n + 1⟩) := by
  unfold eStep at h
  cases hv : evalExpr ctx a.2 with
  | error msg => rw [hv] at h; exact absurd h (by simp)
  | ok v =>
    rw [hv] at h
    simp only at h
    by_cases hu : containsGo u a.1
    · left
      simp only [hu, if_true, Except.ok.injEq] at h
      exact ⟨hu, h.symm⟩
    · right
      simp only [hu, Bool.false_eq_true, if_false] at h
      refine ⟨by simp [hu], ?_⟩
      cases he : emitOf a.1 v with
      | error e => rw [he] at h; exact absurd h (by simp)
      | ok oe =>
        rw [he] at h
        simp only [Except.ok.injEq] at h
        exact ⟨v, oe, rfl, he, h.symm⟩

theorem eFold_ok_cons (ctx : EvalCtx) (st : EState) (a : String × Expr)
    (t : List (String × Expr)) (r : EState)
    (h : eFold ctx st (a :: t) = Except.ok r) :
    ∃ st', eStep ctx st a = Except.ok st' ∧ eFold ctx st' t = Except.ok r := by
  unfold eFold at h
  cases hs : eStep ctx st a with
  | error e => rw [hs] at h; exact absurd h (by simp)
  | ok st' => rw [hs] at h; exact ⟨st', rfl, h⟩

/-- The used-keys slice only grows along the loop. -/
theorem eFold_used_extends (ctx : EvalCtx) (l : List (String × Expr)) :
    ∀ u es n r, eFold ctx ⟨u, es, n⟩ l = Except.ok r →
      ∃ d, r.usedKeys = u ++ d := by
  induction l with
  | nil =>
    intro u es n r h
    unfold eFold at h
    simp only [Except.ok.injEq] at h
    exact ⟨[], by rw [← h]; simp⟩
  | cons a t ih =>
    intro u es n r h
    obtain ⟨st', hs, hf⟩ := eFold_ok_cons ctx _ a t r h
    rcases eStep_ok ctx u es n a st' hs with ⟨_, rfl⟩ | ⟨_, v, oe, _, _, rfl⟩
    · exact ih u es n r hf
    · obtain ⟨d, hd⟩ := ih (u ++ [a.1]) (es ++ oe.toList) (n + 1) r hf
      exact ⟨[a.1] ++ d, by rw [hd]; simp⟩

/-- Starting from an empty event list: no event names an attribute that was
already in `usedKeys`, and no attribute name produces two events. -/
theorem eFold_nodup (ctx : EvalCtx) (l : List (String × Expr)) :
    ∀ u n r, eFold ctx ⟨u, [], n⟩ l = Except.ok r →
      (∀ rec ∈ r.entries, rec.attr ∉ u) ∧ (r.entries.map EmitRec.attr).Nodup := by
  induction l with
  | nil =>
    intro u n r h
    unfold eFold at h
    simp only [Except.ok.injEq] at h
    rw [← h]
    simp
  | cons a t ih =>
    intro u n r h
    obtain ⟨st', hs, hf⟩ := eFold_ok_cons ctx _ a t r h
    rcases eStep_ok ctx u [] n a st' hs with ⟨hu, rfl⟩ | ⟨hu, v, oe, hv, he, rfl⟩
    · exact ih u n r hf
    · rw [eFold_entries] at hf
      cases hb : eFold ctx ⟨u ++ [a.1], [], n + 1⟩ t with
      | error e => rw [hb] at hf; exact absurd hf (by simp [Except.map])
      | ok r' =>
        rw [hb] at hf
        simp only [Except.map, Except.ok.injEq] at hf
        obtain ⟨hnotin, hnd⟩ := ih (u ++ [a.1]) (n + 1) r' hb
        have hanotu : a.1 ∉ u := by
          intro hmem
          rw [(containsGo_iff u a.1).mpr hmem] at hu
          exact absurd hu (by simp)
        constructor
        · intro rec hrec
          rw [← hf] at hrec
          simp only at hrec
          rw [List.nil_append, List.mem_append] at hrec
          rcases hrec with hrec | hrec
          · cases oe with
            | none => simp at hrec
            | some r0 =>
              simp only [Option.toList, List.mem_singleton] at hrec
              rw [hrec, emitOf_attr a.1 v r0 he]
              exact hanotu
          · intro hmem
            exact hnotin rec hrec (by simp [hmem])
        · rw [← hf]
          simp only [List.nil_append, List.map_append]
          cases oe with
          | none => simpa using hnd
          | some r0 =>
            simp only [Option.toList, List.map_cons, List.map_nil, List.singleton_append,
              List.nodup_cons]
            refine ⟨?_, hnd⟩
            intro hmem
            simp only [List.mem_map] at hmem
            obtain ⟨rec, hrecmem, hreca⟩ := hmem
            have := hnotin rec hrecmem
            rw [hreca, emitOf_attr a.1 v r0 he] at this
            exact this (by simp)

/-- The first attribute expression with a given name, in processing order. -/
def firstAttrExpr : List (String × Expr) → String → Option Expr
  | [], _ => none
  | (k', e) :: t, k => if k' = k then some e else firstAttrExpr t k

theorem eFold_entries_extends (ctx : EvalCtx) (l : List (String × Expr))
    (u : List String) (es : List EmitRec) (n : Nat) (r : EState)
    (h : eFold ctx ⟨u, es, n⟩ l = Except.ok r) : ∃ d, r.entries = es ++ d := by
  rw [eFold_entries] at h
  cases hb : eFold ctx ⟨u, [], n⟩ l with
  | error e => rw [hb] at h; exact absurd h (by simp [Except.map])
  | ok r' =>
    rw [hb] at h
    simp only [Except.map, Except.ok.injEq] at h
    exact ⟨r'.entries, by rw [← h]⟩

/-- Every emission event is produced by the first attribute of its name, in
processing order, applied to that attribute's evaluation. -/
theorem eFold_first (ctx : EvalCtx) (l : List (String × Expr)) :
    ∀ u n r, eFold ctx ⟨u, [], n⟩ l = Except.ok r →
      ∀ rec ∈ r.entries, rec.attr ∉ u ∧ ∃ e v, firstAttrExpr l rec.attr = some e ∧
        evalExpr ctx e = Except.ok v ∧ emitOf rec.attr v = Except.ok (some rec) := by
  induction l with
  | nil =>
    intro u n r h
    unfold eFold at h
    simp only [Except.ok.injEq] at h
    rw [← h]
    simp
  | cons a t ih =>
    intro u n r h
    obtain ⟨st', hs, hf⟩ := eFold_ok_cons ctx _ a t r h
    rcases eStep_ok ctx u [] n a st' hs with ⟨hu, rfl⟩ | ⟨hu, v, oe, hv, he, rfl⟩
    · intro rec hrec
      obtain ⟨hnotu, e, v, hfind, hve, hem⟩ := ih u n r hf rec hrec
      refine ⟨hnotu, e, v, ?_, hve, hem⟩
      unfold firstAttrExpr
      have hne : a.1 ≠ rec.attr := by
        intro heq
        exact hnotu (by rw [← heq]; exact (containsGo_iff u a.1).mp hu)
      simp [hne, hfind]
    · rw [eFold_entries] at hf
      cases hb : eFold ctx ⟨u ++ [a.1], [], n + 1⟩ t with
      | error e => rw [hb] at hf; exact absurd hf (by simp [Except.map])
      | ok r' =>
        rw [hb] at hf
        simp only [Except.map, Except.ok.injEq] at hf
        intro rec hrec
        rw [← hf] at hrec
        simp only [List.nil_append, List.mem_append] at hrec
        have hanotu : a.1 ∉ u := by
          intro hm
          rw [(containsGo_iff u a.1).mpr hm] at hu
          exact absurd hu (by simp)
        rcases hrec with hrec | hrec
        · cases oe with
          | none => simp at hrec
          | some r0 =>
            simp only [Option.toList, List.mem_singleton] at hrec
            have hattr : rec.attr = a.1 := by rw [hrec]; exact emitOf_attr a.1 v r0 he
            constructor
            · rw [hattr]; exact hanotu
            · refine ⟨a.2, v, ?_, hv, ?_⟩
              · unfold firstAttrExpr
                rw [hattr, if_pos rfl]
              · rw [hattr, hrec]
                exact he
        · obtain ⟨hnotu', e, v', hfind, hv', hem⟩ := ih (u ++ [a.1]) (n + 1) r' hb rec hrec
          have hne : rec.attr ≠ a.1 := by
            intro heq
            exact hnotu' (by simp [heq])
          have hne' : a.1 ≠ rec.attr := fun hh => hne hh.symm
          refine ⟨fun hm => hnotu' (by simp [hm]), e, v', ?_, hv', hem⟩
          unfold firstAttrExpr
          rw [if_neg hne']
          exact hfind

/-- If the first attribute of name `k` evaluates to an emitting value, the
event really is emitted. -/
theorem eFold_emits (ctx : EvalCtx) (l : List (String × Expr)) :
    ∀ u n r, eFold ctx ⟨u, [], n⟩ l = Except.ok r →
      ∀ k e v rec, k ∉ u → firstAttrExpr l k = some e →
        evalExpr ctx e = Except.ok v → emitOf k v = Except.ok (some rec) →
        rec ∈ r.entries := by
  induction l with
  | nil =>
    intro u n r h k e v rec _ hfind _ _
    simp [firstAttrExpr] at hfind
  | cons a t ih =>
    intro u n r h k e v rec hk hfind hv hem
    obtain ⟨st', hs, hf⟩ := eFold_ok_cons ctx _ a t r h
    by_cases hak : a.1 = k
    · subst hak
      rcases eStep_ok ctx u [] n a st' hs with ⟨hu, rfl⟩ | ⟨hu, v0, oe, hv0, he0, rfl⟩
      · exact absurd ((containsGo_iff u a.1).mp hu) hk
      · unfold firstAttrExpr at hfind
        rw [if_pos rfl] at hfind
        injection hfind with hfe
        subst hfe
        rw [hv] at hv0
        injection hv0 with hvv
        subst hvv
        rw [hem] at he0
        injection he0 with hoe
        subst hoe
        obtain ⟨d, hd⟩ := eFold_entries_extends ctx t _ _ _ r hf
        rw [hd]
        simp
    · unfold firstAttrExpr at hfind
      simp only [if_neg hak] at hfind
      rcases eStep_ok ctx u [] n a st' hs with ⟨hu, rfl⟩ | ⟨hu, v0, oe, hv0, he0, rfl⟩
      · exact ih u n r hf k e v rec hk hfind hv hem
      · rw [eFold_entries] at hf
        cases hb : eFold ctx ⟨u ++ [a.1], [], n + 1⟩ t with
        | error e' => rw [hb] at hf; exact absurd hf (by simp [Except.map])
        | ok r' =>
          rw [hb] at hf
          simp only [Except.map, Except.ok.injEq] at hf
          have hknot : k ∉ u ++ [a.1] := by
            simp only [List.mem_append, List.mem_singleton]
            rintro (hm | hm)
            · exact hk hm
            · exact hak hm.symm
          have hrec := ih (u ++ [a.1]) (n + 1) r' hb k e v rec hknot hfind hv hem
          rw [← hf]
          simp [hrec]

/-! ### Support lemmas for the claim theorems -/

theorem csLoop_refl (fuel : Nat) : ∀ p t e d, csLoop fuel p t e p t e d = d := by
  induction fuel with
  | zero => intro p t e d; rfl
  | succ f ih =>
    intro p t e d
    unfold csLoop
    cases e with
    | false => simp
    | true =>
      have hde : (decide ((scanStep p).2.1 ≠ (scanStep p).2.1)) = false := by simp
      simp only [Bool.not_true, Bool.false_and, Bool.false_eq_true, if_false,
        eq_self_iff_true, if_true, hde, Bool.or_false]
      exact ih _ _ _ _

/-- Two identical strings never register a difference. -/
theorem compareStrings_self (s : String) : compareStrings s s = false := by
  unfold compareStrings
  exact csLoop_refl _ _ _ _ _

/-- The `resolve` accumulation loop keeps the last IPv4 address: it equals the
first IPv4 entry of the reversed address list, with the accumulator as
fallback. -/
theorem foldl_lastV4 (l : List IPAddr) : ∀ acc : String,
    l.foldl (fun acc ip => if ip.v4 then ip.repr else acc) acc =
      (match l.reverse.find? (fun ip => ip.v4) with
       | some ip => ip.repr
       | none => acc) := by
  induction l with
  | nil => intro acc; rfl
  | cons ip t ih =>
    intro acc
    simp only [List.foldl_cons, List.reverse_cons, List.find?_append]
    rw [ih]
    cases hf : t.reverse.find? (fun ip => ip.v4) with
    | some ip' => simp [Option.orElse]
    | none =>
      by_cases hv : ip.v4
      · simp [Option.orElse, List.find?, hv]
      · simp only [Bool.not_eq_true] at hv
        simp [Option.orElse, List.find?, hv]

/-- A character needing no `%q` escape: printable ASCII other than the double
quote and the backslash. -/
def plainQChar (c : Char) : Bool :=
  decide (' ' ≤ c) && decide (c ≤ '~') && !(c == '"') && !(c == '\\')

theorem escQ_plain (c : Char) (h : plainQChar c = true) : escQ c = [c] := by
  unfold plainQChar at h
  simp only [Bool.and_eq_true, Bool.not_eq_true', beq_eq_false_iff_ne, ne_eq,
    decide_eq_true_eq] at h
  obtain ⟨⟨⟨hsp, _⟩, hq⟩, hb⟩ := h
  have hn : c ≠ '\n' := by
    intro hc
    subst hc
    exact absurd hsp (by decide)
  have ht : c ≠ '\t' := by
    intro hc
    subst hc
    exact absurd hsp (by decide)
  unfold escQ
  rw [if_neg hq, if_neg hb, if_neg hn, if_neg ht]

theorem escList_plain (l : List Char) (h : ∀ c ∈ l, plainQChar c = true) :
    escList l = l := by
  induction l with
  | nil => rfl
  | cons c t ih =>
    unfold escList
    rw [escQ_plain c (h c (by simp)), ih (fun c' hc' => h c' (by simp [hc']))]
    rfl

theorem unquoteCore_wrap (l : List Char) : unquoteCore ('"' :: (l ++ ['"'])) = l := by
  unfold unquoteCore
  simp

/-- Projection of the state out of any `Write`-loop step outcome. -/
def wsOf : WStep → WState
  | WStep.cont s => s
  | WStep.stop s => s
  | WStep.fail s _ => s

theorem finishWrite_opts (s : WState) (f r : String) :
    (wsOf (finishWrite s f r)).opts = s.opts := rfl

theorem commitExisting_opts (s : WState) (d : EnvDoc) (stat : FileSt) :
    (wsOf (commitExisting s d stat)).opts.Diff = s.opts.Diff ∧
    (wsOf (commitExisting s d stat)).opts.FilterOverride = s.opts.FilterOverride := by
  unfold commitExisting
  by_cases hu : s.opts.UnsafeMode
  · simp only [hu, Bool.not_true, Bool.false_eq_true, if_false]
    by_cases ho : s.opts.Overwrite
    · simp only [ho, if_true]
      cases mapGet s.fs d.OutFile with
      | none => exact ⟨rfl, rfl⟩
      | some _ => exact ⟨rfl, rfl⟩
    · simp only [ho, Bool.false_eq_true, if_false]
      exact ⟨rfl, rfl⟩
  · simp only [Bool.not_eq_true] at hu
    simp only [hu, Bool.not_false, if_true]
    cases mapGet s.fs (goTrimPre d.OutFile "./") with
    | none => exact ⟨rfl, rfl⟩
    | some fi' => exact ⟨rfl, rfl⟩

theorem promptAndCommit_opts (s : WState) (d : EnvDoc) (stat : FileSt) :
    (wsOf (promptAndCommit s d stat)).opts.Diff = s.opts.Diff ∧
    (wsOf (promptAndCommit s d stat)).opts.FilterOverride = s.opts.FilterOverride := by
  unfold promptAndCommit
  by_cases ho : s.opts.Overwrite
  · simp only [ho, Bool.not_true, Bool.false_eq_true, if_false]
    exact commitExisting_opts s d stat
  · simp only [ho, Bool.not_false, if_true]
    by_cases hr : asciiLower (goTrimSpace ((s.prompts.head?).getD "")) = "y" ∨
        asciiLower (goTrimSpace ((s.prompts.head?).getD "")) = "yes"
    · have hr' : (asciiLower (goTrimSpace ((s.prompts.head?).getD "")) = "y" ||
          asciiLower (goTrimSpace ((s.prompts.head?).getD "")) = "yes") = true := by
        rcases hr with hr | hr <;> simp [hr]
      rw [if_pos hr']
      by_cases hu : s.opts.UnsafeMode
      · simp only [hu, if_true]
        exact commitExisting_opts _ d stat
      · simp only [hu, Bool.false_eq_true, if_false]
        exact commitExisting_opts _ d stat
    · have hr' : (asciiLower (goTrimSpace ((s.prompts.head?).getD "")) = "y" ||
          asciiLower (goTrimSpace ((s.prompts.head?).getD "")) = "yes") = false := by
        push_neg at hr
        simp [hr.1, hr.2]
      rw [if_neg (by simp [hr'])]
      exact ⟨rfl, rfl⟩

theorem writeDoc_opts (s : WState) (d : EnvDoc) :
    (wsOf (writeDoc s d)).opts.Diff = s.opts.Diff ∧
    (wsOf (writeDoc s d)).opts.FilterOverride = s.opts.FilterOverride := by
  unfold writeDoc
  by_cases hd : d.OutFile = "-"
  · simp only [hd, if_pos rfl]
    exact ⟨rfl, rfl⟩
  · rw [if_neg hd]
    cases mapGet s.fs d.OutFile with
    | none => exact ⟨rfl, rfl⟩
    | some stat =>
      simp only
      by_cases hc : compareStrings stat.content d.rendered
      · simp only [hc, Bool.not_true, Bool.false_eq_true, if_false]
        have h := promptAndCommit_opts
          { s with opts :=
              if s.opts.Diff then
                if s.opts.Overwrite then { s.opts with UnsafeMode := true } else s.opts
              else
                if s.opts.Overwrite then { s.opts with UnsafeMode := true }
                else if !s.opts.UnsafeMode then { s.opts with Overwrite := true }
                else s.opts }
          d stat
        refine ⟨?_, ?_⟩
        · rw [h.1]
          by_cases h1 : s.opts.Diff <;> by_cases h2 : s.opts.Overwrite <;>
            by_cases h3 : s.opts.UnsafeMode <;> simp [h1, h2, h3]
        · rw [h.2]
          by_cases h1 : s.opts.Diff <;> by_cases h2 : s.opts.Overwrite <;>
            by_cases h3 : s.opts.UnsafeMode <;> simp [h1, h2, h3]
      · simp only [Bool.not_eq_true] at hc
        simp only [hc, Bool.not_false, if_true]
        constructor
        · by_cases h1 : s.opts.Diff <;> by_cases h2 : s.opts.Overwrite <;>
            by_cases h3 : s.opts.UnsafeMode <;> simp [wsOf, h1, h2, h3]
        · by_cases h1 : s.opts.Diff <;> by_cases h2 : s.opts.Overwrite <;>
            by_cases h3 : s.opts.UnsafeMode <;> simp [wsOf, h1, h2, h3]

theorem writeDocs_opts (docs : List EnvDoc) : ∀ s : WState,
    (writeDocs s docs).1.opts.Diff = s.opts.Diff ∧
    (writeDocs s docs).1.opts.FilterOverride = s.opts.FilterOverride := by
  induction docs with
  | nil => intro s; exact ⟨rfl, rfl⟩
  | cons d rest ih =>
    intro s
    unfold writeDocs
    have h := writeDoc_opts s d
    cases hw : writeDoc s d with
    | cont s' =>
      rw [hw] at h
      simp only [wsOf] at h
      obtain ⟨ih1, ih2⟩ := ih s'
      exact ⟨by rw [ih1, h.1], by rw [ih2, h.2]⟩
    | stop s' =>
      rw [hw] at h
      simp only [wsOf] at h
      exact h
    | fail s' m =>
      rw [hw] at h
      simp only [wsOf] at h
      exact h

/-! ### Claim C1 — Scenario A -/

/-- Scenario A document: `locals { env = "dev" }`,
`vars { WHATENV_IS_THIS = quote(var.env) }`, filter `testing/jaws/`, flat
output format. -/
def c1Doc : EnvHCLDoc :=
  ⟨"", ".env", "", "", "testing/jaws/",
   [[("env", Expr.lit (CtyVal.str "dev"))]],
   [[("WHATENV_IS_THIS", Expr.fnQuote [Expr.varRef "env"])]],
   []⟩

/-- The one supplied secret of Scenario A. -/
def c1Secrets : List Secret := [⟨"testing/jaws/db", "pw"⟩]

/-- What `Process` actually renders for Scenario A. -/
def c1Expected : ProcResult :=
  ⟨"# managed by jaws DO NOT EDIT\n# prefix: testing/jaws/\n\nWHATENV_IS_THIS=\"\"dev\"\"\n\n",
   "testing/jaws/", "managed by jaws DO NOT EDIT"⟩

/-- Claim C1 is false at its own scenario: `quote` already returns `"dev"`
with quotes, and the plain-string arm of `processAttr` wraps the value in
quotes once more, so the rendered line is `WHATENV_IS_THIS=""dev""`, not
`WHATENV_IS_THIS="dev"`; and because the document declares a `vars` block,
the per-secret fallback never runs, so no `DB=pw` line (no `DB` at all)
appears in the output. -/
theorem c1_counterexample :
    Process c1Doc (some c1Secrets) [] = Except.ok c1Expected ∧
    hasLine c1Expected.content "WHATENV_IS_THIS=\"dev\"" = false ∧
    goContains c1Expected.content "WHATENV_IS_THIS=\"dev\"" = false ∧
    hasLine c1Expected.content "DB=pw" = false ∧
    goContains c1Expected.content "DB" = false := by decide

/-- Claim C1 amended: for the Scenario A document, filter and secret, the
flat-format output of `Process` contains the line `WHATENV_IS_THIS=""dev""`
(the quoted value re-wrapped in double quotes by the renderer), and contains
no entry for the supplied secret, because the presence of a `vars` block
disables the fallback per-secret emission. -/
theorem c1_amended_render :
    Process c1Doc (some c1Secrets) [] = Except.ok c1Expected ∧
    hasLine c1Expected.content "WHATENV_IS_THIS=\"\"dev\"\"" = true ∧
    goContains c1Expected.content "DB" = false := by decide

/-! ### Claim C2 — interpreter-marked values -/

/-- Scenario D document: `vars { DB = secret.DB }` with filter
`testing/jaws/`. -/
def c2Doc : EnvHCLDoc :=
  ⟨"", ".env", "", "", "testing/jaws/",
   [[("env", Expr.lit (CtyVal.str "dev"))]],
   [[("DB", Expr.secretRef "DB")]],
   []⟩

/-- Scenario D secret: content carries the interpreter marker followed by
`var.env`. -/
def c2Secrets : List Secret := [⟨"testing/jaws/db", "#!jaws\nvar.env"⟩]

/-- What `Process` actually renders for Scenario D. -/
def c2Expected : ProcResult :=
  ⟨"# managed by jaws DO NOT EDIT\n# prefix: testing/jaws/\n\nDB=var.env\n\n",
   "testing/jaws/", "managed by jaws DO NOT EDIT"⟩

/-- Claim C2 is false at the scenario it names: for secret content
`"#!jaws\nvar.env"`, `parseAttrString` finds no parenthesis pair in the
remainder `var.env`, wraps it in double quotes inside the synthetic document,
and the quoted HCL literal evaluates to itself — so the rendered line is the
literal `DB=var.env`, and the evaluated value of `var.env` (`dev`, declared
in the document's locals) appears nowhere in the output. -/
theorem c2_counterexample :
    Process c2Doc (some c2Secrets) [] = Except.ok c2Expected ∧
    hasLine c2Expected.content "DB=var.env" = true ∧
    goContains c2Expected.content "dev" = false := by decide

/-- Claim C2 amended: an attribute whose evaluated string contains the
`#!jaws` marker (anywhere — the code checks containment, not a leading
marker line) and no file-function sentinel has its first line stripped; when
the remainder contains no `(`/`)` pair (and none of the characters that would
alter the synthesized quoted HCL literal), the remainder itself is emitted
literally — unquoted — under the original key, not re-evaluated against the
document scope. -/
theorem c2_shebang_literal (format : String) (ctx : EvalCtx) (st : PState) (k : String)
    (e : Expr) (s : String)
    (hv : evalExpr ctx e = Except.ok (CtyVal.str s))
    (hfile : goContains s FILE_FUNC_SUCCESS = false)
    (hsheb : goContains s INTERPRETER_SHEBANG = true)
    (hused : containsGo st.usedKeys k = false)
    (hparen : goContains (dropFirstLine s) "(" = false ∨ goContains (dropFirstLine s) ")" = false)
    (hplain : (dropFirstLine s).data.any
        (fun c => c = '"' || c = '\\' || c = '\n' || c = '$' || c = '%') = false) :
    paStep format ctx st (k, e) =
      Except.ok ⟨st.usedKeys ++ [k],
        writeKeyValue st.content format k (dropFirstLine s) st.envVarCount,
        st.envVarCount + 1⟩ := by
  have hpas : parseAttrString (dropFirstLine s) = Except.ok (dropFirstLine s) := by
    unfold parseAttrString
    have h1 : (goContains (dropFirstLine s) "(" && goContains (dropFirstLine s) ")") = false := by
      rcases hparen with h | h <;> simp [h]
    rw [if_neg (by simp [h1]), if_neg (by simp [hplain])]
  unfold paStep
  rw [hv]
  simp only [hused, Bool.false_eq_true, if_false, hfile, hsheb, if_true, hpas]

/-- Witness for the amended C2 at the Scenario D inputs. -/
theorem c2_shebang_literal_witness :
    paStep "" ⟨[], [("DB", "#!jaws\nvar.env")]⟩ ⟨[], "", 0⟩ ("DB", Expr.secretRef "DB") =
      Except.ok ⟨["DB"], "DB=var.env\n", 1⟩ := by
  have h := c2_shebang_literal "" ⟨[], [("DB", "#!jaws\nvar.env")]⟩ ⟨[], "", 0⟩ "DB"
    (Expr.secretRef "DB") "#!jaws\nvar.env" (by decide) (by decide) (by decide) (by decide)
    (Or.inl (by decide)) (by decide)
  exact h.trans (by decide)

/-! ### Claim C10 — boolean and numeric values -/

/-- A document whose single attribute name `N` first evaluates to a number
(first `vars` block) and then to a string (second block). -/
def c10Doc : EnvHCLDoc :=
  ⟨"", ".env", "", "", "", [],
   [[("N", Expr.lit (CtyVal.num 7))], [("N", Expr.lit (CtyVal.str "s"))]],
   []⟩

/-- What `Process` renders for `c10Doc`: headers and block separators only,
no entry at all — yet non-empty. -/
def c10Expected : ProcResult :=
  ⟨"# managed by jaws DO NOT EDIT\n\n\n", "", "managed by jaws DO NOT EDIT"⟩

/-- Claim C10 confirmed: an attribute evaluating to a boolean or a number
produces no output entry, but its name still enters `usedKeys` and the
emitted-entry counter is still incremented; a later attribute of an
already-used name (whatever its value) is skipped entirely; and a document
whose attributes all evaluate to numbers renders non-empty content (header
comments and separators only, no `N=` entry), so the `envVarCount == 0`
reset to the empty string does not fire. -/
theorem c10_bool_num_not_emitted :
    (∀ format ctx (st : PState) k e b, evalExpr ctx e = Except.ok (CtyVal.bool b) →
       containsGo st.usedKeys k = false →
       paStep format ctx st (k, e) =
         Except.ok ⟨st.usedKeys ++ [k], st.content, st.envVarCount + 1⟩) ∧
    (∀ format ctx (st : PState) k e m, evalExpr ctx e = Except.ok (CtyVal.num m) →
       containsGo st.usedKeys k = false →
       paStep format ctx st (k, e) =
         Except.ok ⟨st.usedKeys ++ [k], st.content, st.envVarCount + 1⟩) ∧
    (∀ format ctx (st : PState) k e v, evalExpr ctx e = Except.ok v →
       containsGo st.usedKeys k = true →
       paStep format ctx st (k, e) = Except.ok st) ∧
    (Process c10Doc none [] = Except.ok c10Expected ∧
     c10Expected.content = "# managed by jaws DO NOT EDIT\n\n\n" ∧
     c10Expected.content ≠ "" ∧
     goContains c10Expected.content "N=" = false) := by
  refine ⟨?_, ?_, ?_, by decide⟩
  · intro format ctx st k e b hv hused
    unfold paStep
    rw [hv]
    simp only [hused, Bool.false_eq_true, if_false]
  · intro format ctx st k e m hv hused
    unfold paStep
    rw [hv]
    simp only [hused, Bool.false_eq_true, if_false]
  · intro format ctx st k e v hv hused
    unfold paStep
    rw [hv]
    simp only [hused, if_true]

/-- Witness for C10 at a concrete numeric attribute. -/
theorem c10_bool_num_not_emitted_witness :
    paStep "" ⟨[], []⟩ ⟨[], "", 0⟩ ("N", Expr.lit (CtyVal.num 7)) =
      Except.ok ⟨["N"], "", 1⟩ := by
  have h := c10_bool_num_not_emitted.2.1 "" ⟨[], []⟩ ⟨[], "", 0⟩ "N"
    (Expr.lit (CtyVal.num 7)) 7 (by decide) (by decide)
  exact h.trans (by decide)

/-! ### Claim C6 — quote/unquote round trip -/

/-- Claim C6 is false for backslash-bearing strings without embedded double
quotes: `quote` uses Go `%q`, which escapes the backslash, and `unquote` only
strips the outer quotes, so `unquote(quote("a\b"))` is `a\\b`, not `a\b`. -/
theorem c6_counterexample :
    unquoteFn [quoteFn ["a\\b"]] ≠ "a\\b" ∧
    unquoteFn [quoteFn ["a\\b"]] = "a\\\\b" ∧
    goContains "a\\b" "\"" = false := by decide

/-- Claim C6 amended: `unquote(quote(s)) = s` for every string of printable
ASCII characters containing neither a double quote nor a backslash (the
characters `%q` leaves unescaped). -/
theorem c6_roundtrip (s : String) (h : ∀ c ∈ s.data, plainQChar c = true) :
    unquoteFn [quoteFn [s]] = s := by
  have hq : quoteFn [s] = String.mk ('"' :: (s.data ++ ['"'])) := by
    unfold quoteFn goQuote goJoin
    rw [escList_plain s.data h]
  rw [hq]
  show String.mk (unquoteCore ('"' :: (s.data ++ ['"']))) = s
  rw [unquoteCore_wrap]

/-- Witness for the amended C6 at `s = "dev"`. -/
theorem c6_roundtrip_witness : unquoteFn [quoteFn ["dev"]] = "dev" :=
  c6_roundtrip "dev" (by decide)

/-! ### Claim C3 — resolve -/

/-- Claim C3 is false on both of its tails: a failed lookup makes `resolve`
return an "unknown FQDN" error — also for `localhost`, which the claim says
never errors — rather than the original hostname; and with several IPv4
answers the loop keeps the last one, not the first. -/
theorem c3_counterexample :
    resolve (fun _ => none) "localhost" = Except.error "unknown FQDN: localhost" ∧
    resolve (fun _ => some [⟨true, "1.2.3.4"⟩, ⟨true, "5.6.7.8"⟩]) "localhost" =
      Except.ok "5.6.7.8" := by decide

/-- Claim C3 amended: `resolve(h)` fails with "invalid FQDN" if `h` is neither
a regex-plausible FQDN nor the literal `localhost`; otherwise it performs the
lookup and (a) fails with "unknown FQDN" when the lookup fails, and (b) on
success returns the last IPv4 address of the answer list (the first of the
reversed list), or the original hostname when the list has no IPv4 address. -/
theorem c3_resolve_behavior (lookup : String → Option (List IPAddr)) (h : String) :
    (validateDomainName h = false ∧ h ≠ "localhost" →
      resolve lookup h = Except.error ("invalid FQDN: " ++ h)) ∧
    ((validateDomainName h = true ∨ h = "localhost") →
      (lookup h = none → resolve lookup h = Except.error ("unknown FQDN: " ++ h)) ∧
      (∀ l, lookup h = some l →
        resolve lookup h = Except.ok
          (match l.reverse.find? (fun ip => ip.v4) with
           | some ip => ip.repr
           | none => h))) := by
  constructor
  · rintro ⟨hv, hne⟩
    unfold resolve
    rw [if_pos (by simp [hv, hne])]
  · intro hok
    have hcond : (!validateDomainName h && decide (h ≠ "localhost")) = false := by
      rcases hok with hv | hl
      · simp [hv]
      · simp [hl]
    constructor
    · intro hnone
      unfold resolve
      rw [if_neg (by rw [hcond]; simp), hnone]
    · intro l hsome
      unfold resolve
      rw [if_neg (by rw [hcond]; simp), hsome]
      simp only [Except.ok.injEq]
      exact foldl_lastV4 l h

/-- Witness for the amended C3: a valid FQDN with one IPv4 answer. -/
theorem c3_resolve_behavior_witness :
    resolve (fun _ => some [⟨false, "::1"⟩, ⟨true, "9.9.9.9"⟩]) "example.com" =
      Except.ok "9.9.9.9" := by
  have h := ((c3_resolve_behavior (fun _ => some [⟨false, "::1"⟩, ⟨true, "9.9.9.9"⟩])
    "example.com").2 (Or.inl (by decide))).2 [⟨false, "::1"⟩, ⟨true, "9.9.9.9"⟩] rfl
  exact h.trans (by decide)

/-! ### Claim C4 — Prepare's secret identifiers -/

theorem appendDedup_mem_existing (ids : List String) :
    ∀ existing : List String, ∀ x ∈ existing, x ∈ appendDedup existing ids := by
  induction ids with
  | nil => intro existing x hx; exact hx
  | cons id t ih =>
    intro existing x hx
    unfold appendDedup
    show x ∈ List.foldl _ (if containsGo existing id then existing else existing ++ [id]) t
    by_cases hc : containsGo existing id
    · rw [if_pos hc]
      exact ih existing x hx
    · rw [if_neg hc]
      exact ih (existing ++ [id]) x (by simp [hx])

theorem appendDedup_mem_ids (ids : List String) :
    ∀ existing : List String, ∀ x ∈ ids, x ∈ appendDedup existing ids := by
  induction ids with
  | nil => intro existing x hx; simp at hx
  | cons id t ih =>
    intro existing x hx
    unfold appendDedup
    show x ∈ List.foldl _ (if containsGo existing id then existing else existing ++ [id]) t
    rcases List.mem_cons.mp hx with rfl | hx'
    · by_cases hc : containsGo existing x
      · rw [if_pos hc]
        exact appendDedup_mem_existing t existing x ((containsGo_iff existing x).mp hc)
      · rw [if_neg hc]
        exact appendDedup_mem_existing t (existing ++ [x]) x (by simp)
    · by_cases hc : containsGo existing id
      · rw [if_pos hc]; exact ih existing x hx'
      · rw [if_neg hc]; exact ih (existing ++ [id]) x hx'

theorem appendDedup_nodup (ids : List String) :
    ∀ existing : List String, existing.Nodup → (appendDedup existing ids).Nodup := by
  induction ids with
  | nil => intro existing hnd; exact hnd
  | cons id t ih =>
    intro existing hnd
    unfold appendDedup
    show (List.foldl _ (if containsGo existing id then existing else existing ++ [id]) t).Nodup
    by_cases hc : containsGo existing id
    · rw [if_pos hc]
      exact ih existing hnd
    · rw [if_neg hc]
      refine ih (existing ++ [id]) ?_
      have hnotin : id ∉ existing := fun hm => hc ((containsGo_iff existing id).mpr hm)
      simp [List.nodup_append, hnd, hnotin]

/-- Claim C4's wording checked against the code: `Prepare` maps underscores
of the reconstructed identifier to hyphens (`mkSecretId`), the word separator
of the backends' secret names (the repository's docs write
`testing/jaws/blah-blah` for attribute `BLAH_BLAH`), not to the path
separator `/` as the claim says — reading the claim literally
(`specSecretIdPathSep`) produces `testing/jaws/db/pass`, which is never
collected. -/
theorem c4_counterexample :
    FormatPrefixString "testing/jaws/" = "testing/jaws/*" ∧
    collectSecretIds "testing/jaws/*" [[("DB_PASS", Expr.secretRef "db_pass")]] [] =
      ["testing/jaws/db-pass"] ∧
    specSecretIdPathSep "testing/jaws/*" "db_pass" = "testing/jaws/db/pass" ∧
    ¬ ("testing/jaws/db/pass" ∈ appendDedup [] (collectSecretIds "testing/jaws/*"
        [[("DB_PASS", Expr.secretRef "db_pass")]] [])) := by decide

/-- Claim C4 amended: for every attribute expression of every unlabeled or
labeled block, each `secret.`-rooted traversal name `n` contributes the
identifier `mkSecretId filter n` — the stored filter prefix (trailing `*`
trimmed) concatenated with the lower-cased name, with every underscore of
the concatenation (the filter included) replaced by a hyphen — to the
config's required-secret-ID list; entries already present are kept and the
appended list stays duplicate-free. -/
theorem c4_collect_ids (filter : String) (gvs : List (List (String × Expr)))
    (glvs : List (String × List (String × Expr))) (existing : List String) :
    (∀ blk ∈ gvs, ∀ kv ∈ blk, ∀ n ∈ secretVarNames kv.2,
       mkSecretId filter n ∈ appendDedup existing (collectSecretIds filter gvs glvs)) ∧
    (∀ lb ∈ glvs, ∀ kv ∈ lb.2, ∀ n ∈ secretVarNames kv.2,
       mkSecretId filter n ∈ appendDedup existing (collectSecretIds filter gvs glvs)) ∧
    (∀ x ∈ existing, x ∈ appendDedup existing (collectSecretIds filter gvs glvs)) ∧
    (existing.Nodup → (appendDedup existing (collectSecretIds filter gvs glvs)).Nodup) := by
  refine ⟨?_, ?_, appendDedup_mem_existing _ existing, appendDedup_nodup _ existing⟩
  · intro blk hblk kv hkv n hn
    refine appendDedup_mem_ids _ existing _ ?_
    unfold collectSecretIds
    rw [List.mem_append]
    left
    rw [mem_flatMapL]
    exact ⟨blk, hblk, by rw [mem_flatMapL]; exact ⟨kv, hkv, List.mem_map.mpr ⟨n, hn, rfl⟩⟩⟩
  · intro lb hlb kv hkv n hn
    refine appendDedup_mem_ids _ existing _ ?_
    unfold collectSecretIds
    rw [List.mem_append]
    right
    rw [mem_flatMapL]
    exact ⟨lb, hlb, by rw [mem_flatMapL]; exact ⟨kv, hkv, List.mem_map.mpr ⟨n, hn, rfl⟩⟩⟩

/-- Witness for the amended C4 at a concrete document. -/
theorem c4_collect_ids_witness :
    mkSecretId "p/" "db_pass" ∈
      appendDedup [] (collectSecretIds "p/" [[("X", Expr.secretRef "db_pass")]] []) ∧
    (appendDedup [] (collectSecretIds "p/" [[("X", Expr.secretRef "db_pass")]] [])).Nodup := by
  have h := c4_collect_ids "p/" [[("X", Expr.secretRef "db_pass")]] [] []
  exact ⟨h.1 [("X", Expr.secretRef "db_pass")] (by simp) ("X", Expr.secretRef "db_pass")
    (by simp) "db_pass" (by decide), h.2.2.2 (by simp)⟩

/-! ### Claim C5 — deduplication across blocks -/

/-- A document declaring `X` in a labeled group (processed first, evaluating
to a number) and again in an unlabeled block (a string). -/
def c5CDoc : EnvHCLDoc :=
  ⟨"", ".env", "", "", "", [],
   [[("X", Expr.lit (CtyVal.str "s"))]],
   [("g", [("X", Expr.lit (CtyVal.num 1))])]⟩

/-- What `Process` renders for `c5CDoc`: banner and separators, no `X` entry. -/
def c5CExpected : ProcResult :=
  ⟨"# managed by jaws DO NOT EDIT\n###########\n##   g   ##\n###########\n\n\n",
   "", "managed by jaws DO NOT EDIT"⟩

/-- Claim C5 is false as stated: the attribute name `X` is declared in two
different blocks of `c5CDoc`, but it is emitted zero times — not exactly
once — because the first evaluation encountered (the labeled group's, a
number) emits nothing yet marks the name used, which then suppresses the
string-valued declaration of the later block. -/
theorem c5_counterexample :
    Process c5CDoc none [] = Except.ok c5CExpected ∧
    goContains c5CExpected.content "X=" = false ∧
    goContains c5CExpected.content "X" = false := by decide

/-- A document declaring `X` in a labeled group and in an unlabeled block,
both strings. -/
def c5Doc : EnvHCLDoc :=
  ⟨"", ".env", "", "", "", [],
   [[("X", Expr.lit (CtyVal.str "two"))]],
   [("g", [("X", Expr.lit (CtyVal.str "one"))])]⟩

/-- What `Process` renders for `c5Doc`: the labeled group's evaluation wins. -/
def c5Expected : ProcResult :=
  ⟨"# managed by jaws DO NOT EDIT\n###########\n##   g   ##\n###########\nX=\"one\"\n\n\n",
   "", "managed by jaws DO NOT EDIT"⟩

/-- Claim C5 amended: within one render pass an attribute name is emitted at
most once — never re-emitted once recorded, also when it was recorded by an
earlier non-emitting (boolean/numeric) evaluation — and any emission for a
name is produced by the first attribute of that name in processing order
(labeled groups before unlabeled blocks); when that first evaluation emits,
the event really appears.  Stated on the emission-event view of the loop,
which the conjoined refinement equation ties to the real flat-format
renderer; the final conjunct shows the labeled group's evaluation winning on
a concrete two-block document. -/
theorem c5_dedup :
    (∀ ctx l u n r, eFold ctx ⟨u, [], n⟩ l = Except.ok r →
       (r.entries.map EmitRec.attr).Nodup ∧
       (∀ rec ∈ r.entries, rec.attr ∉ u) ∧
       (∀ rec ∈ r.entries, ∃ e v, firstAttrExpr l rec.attr = some e ∧
          evalExpr ctx e = Except.ok v ∧ emitOf rec.attr v = Except.ok (some rec))) ∧
    (∀ ctx l u n r k e v rec, eFold ctx ⟨u, [], n⟩ l = Except.ok r → k ∉ u →
       firstAttrExpr l k = some e → evalExpr ctx e = Except.ok v →
       emitOf k v = Except.ok (some rec) → rec ∈ r.entries) ∧
    (∀ ctx l u c n, paFold "" ctx ⟨u, c, n⟩ l =
       Except.map (fun r : EState => PState.mk r.usedKeys (c ++ flatRender r.entries) r.envVarCount)
         (eFold ctx ⟨u, [], n⟩ l)) ∧
    (Process c5Doc none [] = Except.ok c5Expected ∧
     hasLine c5Expected.content "X=\"one\"" = true ∧
     goContains c5Expected.content "two" = false) := by
  refine ⟨?_, ?_, ?_, by decide⟩
  · intro ctx l u n r hr
    obtain ⟨h1, h2⟩ := eFold_nodup ctx l u n r hr
    exact ⟨h2, h1, fun rec hrec => (eFold_first ctx l u n r hr rec hrec).2⟩
  · intro ctx l u n r k e v rec hr hk hf hv he
    exact eFold_emits ctx l u n r hr k e v rec hk hf hv he
  · intro ctx l u c n
    exact paFold_flat ctx l u c n

/-- Witness for the amended C5: a name declared twice emits once, with the
first value. -/
theorem c5_dedup_witness :
    ((EState.mk ["A"] [EmitRec.mk "A" "A" "\"x\""] 1).entries.map EmitRec.attr).Nodup ∧
    (∀ rec ∈ (EState.mk ["A"] [EmitRec.mk "A" "A" "\"x\""] 1).entries,
       rec.attr ∉ ([] : List String)) ∧
    (∀ rec ∈ (EState.mk ["A"] [EmitRec.mk "A" "A" "\"x\""] 1).entries, ∃ e v,
       firstAttrExpr [("A", Expr.lit (CtyVal.str "x")), ("A", Expr.lit (CtyVal.str "y"))]
         rec.attr = some e ∧
       evalExpr ⟨[], []⟩ e = Except.ok v ∧ emitOf rec.attr v = Except.ok (some rec)) :=
  c5_dedup.1 ⟨[], []⟩ [("A", Expr.lit (CtyVal.str "x")), ("A", Expr.lit (CtyVal.str "y"))]
    [] 0 (EState.mk ["A"] [EmitRec.mk "A" "A" "\"x\""] 1) (by decide)

/-! ### Claim C7 — identical content aborts with no error -/

/-- Claim C7 confirmed: with the diff option set and an existing output file
whose content equals the rendered content, `Write` returns no error, leaves
the filesystem exactly as it was (no rename, delete or overwrite), prints the
no-changes notice, and that document's write is aborted (the notice is the
only action taken; the early return also skips any remaining documents). -/
theorem c7_no_changes_abort (opts : Options) (fs : List (String × FileSt))
    (prompts : List String) (d : EnvDoc) (rest : List EnvDoc) (fi : FileSt)
    (hout : d.OutFile ≠ "-") (hget : mapGet fs d.OutFile = some fi)
    (heq : fi.content = d.rendered) (hdiff : opts.Diff = true) :
    (WriteModel opts fs prompts (d :: rest)).2 = Except.ok () ∧
    (WriteModel opts fs prompts (d :: rest)).1.fs = fs ∧
    (WriteModel opts fs prompts (d :: rest)).1.log = [noChangesMsg d.OutFile] ∧
    (WriteModel opts fs prompts (d :: rest)).1.shown = [] := by
  have hw : writeDoc ⟨fs, opts, prompts, [], [], ""⟩ d =
      WStep.stop ⟨fs, if opts.Overwrite then { opts with UnsafeMode := true } else opts,
        prompts, [], [noChangesMsg d.OutFile], ""⟩ := by
    unfold writeDoc
    rw [if_neg hout, hget]
    simp only [hdiff, if_true, heq, compareStrings_self, Bool.not_false, List.nil_append]
  unfold WriteModel writeDocs
  rw [hw]
  exact ⟨rfl, rfl, rfl, rfl⟩

/-- Witness for C7 at a concrete filesystem. -/
theorem c7_no_changes_abort_witness :
    (WriteModel ⟨true, false, false, ""⟩ [("f.env", ⟨"A\n", "T"⟩)] [] [⟨"f.env", "A\n"⟩]).2 =
      Except.ok () ∧
    (WriteModel ⟨true, false, false, ""⟩ [("f.env", ⟨"A\n", "T"⟩)] [] [⟨"f.env", "A\n"⟩]).1.fs =
      [("f.env", ⟨"A\n", "T"⟩)] ∧
    (WriteModel ⟨true, false, false, ""⟩ [("f.env", ⟨"A\n", "T"⟩)] [] [⟨"f.env", "A\n"⟩]).1.log =
      [noChangesMsg "f.env"] ∧
    (WriteModel ⟨true, false, false, ""⟩ [("f.env", ⟨"A\n", "T"⟩)] [] [⟨"f.env", "A\n"⟩]).1.shown =
      [] :=
  c7_no_changes_abort ⟨true, false, false, ""⟩ [("f.env", ⟨"A\n", "T"⟩)] []
    ⟨"f.env", "A\n"⟩ [] ⟨"A\n", "T"⟩ (by decide) (by decide) rfl rfl

/-! ### Claim C8 — prompting on a detected change -/

/-- Claim C8 is false in the default configuration: with `{Diff:false,
Overwrite:false, UnsafeMode:false}` and an existing file differing from the
rendered content, the non-diff branch silently sets `Overwrite := true`, so
the operator is never prompted; the file is backed up by rename and
overwritten without any question being asked. -/
theorem c8_counterexample :
    compareStrings "OLD\n" "NEW\n" = true ∧
    (⟨false, false, false, ""⟩ : Options).Overwrite = false ∧
    (WriteModel ⟨false, false, false, ""⟩ [("app.env", ⟨"OLD\n", "2020-01-02T03:04:05Z"⟩)] []
        [⟨"app.env", "NEW\n"⟩]).1.shown = [] ∧
    (WriteModel ⟨false, false, false, ""⟩ [("app.env", ⟨"OLD\n", "2020-01-02T03:04:05Z"⟩)] []
        [⟨"app.env", "NEW\n"⟩]).2 = Except.ok () ∧
    (WriteModel ⟨false, false, false, ""⟩ [("app.env", ⟨"OLD\n", "2020-01-02T03:04:05Z"⟩)] []
        [⟨"app.env", "NEW\n"⟩]).1.fs =
      [("2020-01-02T03:04:05Z-app.env", ⟨"OLD\n", "2020-01-02T03:04:05Z"⟩),
       ("app.env", ⟨"NEW\n", ""⟩)] := by decide

/-- Claim C8 amended: when a change is detected and `Overwrite` is not set,
the operator is prompted only in diff mode or in unsafe mode (otherwise the
write proceeds silently); the prompt asks to overwrite destructively when
`UnsafeMode` is set and to create-new-and-backup otherwise, and a negative
answer makes the whole `Write` return `nil` with no filesystem
modification. -/
theorem c8_prompt_decline (opts : Options) (fs : List (String × FileSt))
    (prompts : List String) (d : EnvDoc) (rest : List EnvDoc) (fi : FileSt)
    (hout : d.OutFile ≠ "-") (hget : mapGet fs d.OutFile = some fi)
    (hch : compareStrings fi.content d.rendered = true)
    (hov : opts.Overwrite = false)
    (hmode : opts.Diff = true ∨ opts.UnsafeMode = true)
    (hneg : asciiLower (goTrimSpace ((prompts.head?).getD "")) ≠ "y" ∧
            asciiLower (goTrimSpace ((prompts.head?).getD "")) ≠ "yes") :
    (WriteModel opts fs prompts (d :: rest)).2 = Except.ok () ∧
    (WriteModel opts fs prompts (d :: rest)).1.fs = fs ∧
    (WriteModel opts fs prompts (d :: rest)).1.shown =
      [if opts.UnsafeMode then overwriteMsg d.OutFile else backupMsg d.OutFile] ∧
    (WriteModel opts fs prompts (d :: rest)).1.log = ["quitting..."] := by
  have hopts1 : (if opts.Diff then
        (if opts.Overwrite then { opts with UnsafeMode := true } else opts)
      else
        (if opts.Overwrite then { opts with UnsafeMode := true }
         else if !opts.UnsafeMode then { opts with Overwrite := true }
         else opts)) = opts := by
    rcases hmode with hd | hu
    · simp [hd, hov]
    · simp [hov, hu]
  have hw : writeDoc ⟨fs, opts, prompts, [], [], ""⟩ d =
      WStep.stop ⟨fs, opts, prompts.tail,
        [if opts.UnsafeMode then overwriteMsg d.OutFile else backupMsg d.OutFile],
        ["quitting..."], ""⟩ := by
    unfold writeDoc
    rw [if_neg hout, hget]
    simp only [hopts1, hch, Bool.not_true, Bool.false_eq_true, if_false]
    unfold promptAndCommit
    simp only [hov, Bool.not_false, if_true, List.nil_append]
    rw [if_neg (by simp [hneg.1, hneg.2])]
  unfold WriteModel writeDocs
  rw [hw]
  exact ⟨rfl, rfl, rfl, rfl⟩

/-- Witness for the amended C8: safe mode with diff, answer "n". -/
theorem c8_prompt_decline_witness :
    (WriteModel ⟨true, false, false, ""⟩ [("f.env", ⟨"A\n", "T"⟩)] ["n"] [⟨"f.env", "B\n"⟩]).2 =
      Except.ok () ∧
    (WriteModel ⟨true, false, false, ""⟩ [("f.env", ⟨"A\n", "T"⟩)] ["n"] [⟨"f.env", "B\n"⟩]).1.fs =
      [("f.env", ⟨"A\n", "T"⟩)] ∧
    (WriteModel ⟨true, false, false, ""⟩ [("f.env", ⟨"A\n", "T"⟩)] ["n"] [⟨"f.env", "B\n"⟩]).1.shown =
      [if (⟨true, false, false, ""⟩ : Options).UnsafeMode then overwriteMsg "f.env"
       else backupMsg "f.env"] ∧
    (WriteModel ⟨true, false, false, ""⟩ [("f.env", ⟨"A\n", "T"⟩)] ["n"] [⟨"f.env", "B\n"⟩]).1.log =
      ["quitting..."] :=
  c8_prompt_decline ⟨true, false, false, ""⟩ [("f.env", ⟨"A\n", "T"⟩)] ["n"]
    ⟨"f.env", "B\n"⟩ [] ⟨"A\n", "T"⟩ (by decide) (by decide) (by decide) rfl
    (Or.inl rfl) (by decide)

/-! ### Claim C9 — Options immutability -/

/-- Claim C9 is false: `Write` mutates the config's Options.  With
`{Diff:true, Overwrite:true, UnsafeMode:false}` and an existing differing
output file, the diff branch promotes `Overwrite` into `UnsafeMode := true`,
observable after the call. -/
theorem c9_counterexample :
    (WriteModel ⟨true, true, false, ""⟩ [("a.env", ⟨"OLD\n", "T"⟩)] [] [⟨"a.env", "NEW\n"⟩]).1.opts ≠
      (⟨true, true, false, ""⟩ : Options) ∧
    (WriteModel ⟨true, true, false, ""⟩ [("a.env", ⟨"OLD\n", "T"⟩)] []
        [⟨"a.env", "NEW\n"⟩]).1.opts.UnsafeMode = true ∧
    (⟨true, true, false, ""⟩ : Options).UnsafeMode = false := by decide

/-- Claim C9 amended: `Write` may flip the `Overwrite` and `UnsafeMode`
fields of the config's Options while reconciling existing output files, but
the `Diff` and `FilterOverride` fields equal their pre-call values after
every call, whatever the filesystem, prompts and documents. -/
theorem c9_fields_preserved (opts : Options) (fs : List (String × FileSt))
    (prompts : List String) (docs : List EnvDoc) :
    (WriteModel opts fs prompts docs).1.opts.Diff = opts.Diff ∧
    (WriteModel opts fs prompts docs).1.opts.FilterOverride = opts.FilterOverride :=
  writeDocs_opts docs ⟨fs, opts, prompts, [], [], ""⟩
